import Mathlib

/-!
Verification of the Ace-Paste text-sanitization engine
(`src/utils/invisibleCharacters.ts`).

A JavaScript string is modelled as a `List Nat` of UTF-16 code units
(each `< 0x10000` for genuine strings; the definitions are total over
all naturals).  All functions below are shallow embeddings of the
TypeScript source, translated statement by statement; modelling
simplifications, where unavoidable, are noted in the doc comment of the
definition concerned.
-/

set_option maxHeartbeats 1000000

namespace AcePaste

/-- A UTF-16 high (leading) surrogate code unit. -/
def isHigh (u : Nat) : Bool := decide (0xD800 ≤ u ∧ u ≤ 0xDBFF)

/-- A UTF-16 low (trailing) surrogate code unit. -/
def isLow (u : Nat) : Bool := decide (0xDC00 ≤ u ∧ u ≤ 0xDFFF)

/-- Combine a surrogate pair into the supplementary-plane code point,
exactly as `String.prototype.codePointAt` does. -/
def combine (hi lo : Nat) : Nat := 0x10000 + (hi - 0xD800) * 0x400 + (lo - 0xDC00)

/-- Registry list `INVISIBLE_CHARACTERS.ZERO_WIDTH` from the source. -/
def ZERO_WIDTH : List Nat := [0x200B, 0x200C, 0x200D, 0x2060, 0xFEFF]

/-- Registry list `INVISIBLE_CHARACTERS.BIDI_CONTROLS` from the source. -/
def BIDI_CONTROLS : List Nat :=
  [0x200E, 0x200F, 0x061C, 0x202A, 0x202B, 0x202C, 0x202D, 0x202E,
   0x2066, 0x2067, 0x2068, 0x2069]

/-- Registry list `INVISIBLE_CHARACTERS.MATH_OPERATORS` from the source. -/
def MATH_OPERATORS : List Nat := [0x2061, 0x2062, 0x2063, 0x2064]

/-- Registry list `INVISIBLE_CHARACTERS.HYPHENATION` from the source. -/
def HYPHENATION : List Nat := [0x00AD]

/-- Registry list `INVISIBLE_CHARACTERS.VARIATION_SELECTORS` from the source:
the Mongolian selectors plus VS1-VS16 (`0xFE00 + i` for `i < 16`). -/
def VARIATION_SELECTORS : List Nat :=
  [0x180B, 0x180C, 0x180D, 0x180E] ++ (List.range 16).map (fun i => 0xFE00 + i)

/-- Registry list `INVISIBLE_CHARACTERS.FORMAT_CONTROLS` from the source. -/
def FORMAT_CONTROLS : List Nat := [0x034F, 0xFFF9, 0xFFFA, 0xFFFB]

/-- Registry list `INVISIBLE_CHARACTERS.SHORTHAND` from the source. -/
def SHORTHAND : List Nat := [0x1BCA0, 0x1BCA1, 0x1BCA2, 0x1BCA3]

/-- `TAG_START` from the source. -/
def TAG_START : Nat := 0xE0000

/-- `TAG_END` from the source. -/
def TAG_END : Nat := 0xE007F

/-- `IVS_START` from the source. -/
def IVS_START : Nat := 0xE0100

/-- `IVS_END` from the source. -/
def IVS_END : Nat := 0xE01EF

/-- Membership in the `invisibleSet` of the source: the union of the seven
explicit category lists plus the TAG and IVS contiguous ranges. -/
def invisible (cp : Nat) : Bool :=
  ZERO_WIDTH.contains cp || BIDI_CONTROLS.contains cp ||
  MATH_OPERATORS.contains cp || HYPHENATION.contains cp ||
  VARIATION_SELECTORS.contains cp || FORMAT_CONTROLS.contains cp ||
  SHORTHAND.contains cp ||
  decide (TAG_START ≤ cp ∧ cp ≤ TAG_END) ||
  decide (IVS_START ≤ cp ∧ cp ≤ IVS_END)

/-- The nine invisible-character categories of the engine. -/
inductive Category where
  | ZERO_WIDTH
  | BIDI_CONTROLS
  | MATH_OPERATORS
  | HYPHENATION
  | VARIATION_SELECTORS
  | FORMAT_CONTROLS
  | SHORTHAND
  | TAG_CHARACTERS
  | IVS_CHARACTERS
deriving DecidableEq

/-- The per-category counters of a `DetectionResult` (the `categories`
record of the source). -/
structure Categories where
  ZERO_WIDTH : Nat
  BIDI_CONTROLS : Nat
  MATH_OPERATORS : Nat
  HYPHENATION : Nat
  VARIATION_SELECTORS : Nat
  FORMAT_CONTROLS : Nat
  SHORTHAND : Nat
  TAG_CHARACTERS : Nat
  IVS_CHARACTERS : Nat
deriving DecidableEq

/-- The `additionalCleaning` record of a `DetectionResult`. -/
structure AdditionalCleaning where
  markdownHeaders : Nat
  markdownBold : Nat
  repeatingChars : Nat
  formattingLines : Nat
  extraWhitespace : Nat
  wordExchanges : Nat
deriving DecidableEq

/-- The `DetectionResult` record of the source; `additionalCleaning` is
optional there and absent from `detectInvisibleCharacters` results. -/
structure DetectionResult where
  totalCount : Nat
  categories : Categories
  positions : List Nat
  additionalCleaning : Option AdditionalCleaning
deriving DecidableEq

/-- The all-zero `Categories` record. -/
def zeroCategories : Categories := ⟨0, 0, 0, 0, 0, 0, 0, 0, 0⟩

/-- The all-zero `DetectionResult` the source initialises with
(no `additionalCleaning` field). -/
def zeroResult : DetectionResult := ⟨0, zeroCategories, [], none⟩

/-- Sum of the nine per-category counters. -/
def sumCategories (c : Categories) : Nat :=
  c.ZERO_WIDTH + c.BIDI_CONTROLS + c.MATH_OPERATORS + c.HYPHENATION +
  c.VARIATION_SELECTORS + c.FORMAT_CONTROLS + c.SHORTHAND +
  c.TAG_CHARACTERS + c.IVS_CHARACTERS

/-- Category resolution for a registry hit, in source order: the TAG range
first, then the IVS range, then the seven explicit lists in the insertion
order of `Object.entries(INVISIBLE_CHARACTERS)` with first-match-wins
(the `break` of the source). -/
def resolvedCategory (cp : Nat) : Option Category :=
  if TAG_START ≤ cp ∧ cp ≤ TAG_END then some .TAG_CHARACTERS
  else if IVS_START ≤ cp ∧ cp ≤ IVS_END then some .IVS_CHARACTERS
  else if ZERO_WIDTH.contains cp then some .ZERO_WIDTH
  else if BIDI_CONTROLS.contains cp then some .BIDI_CONTROLS
  else if MATH_OPERATORS.contains cp then some .MATH_OPERATORS
  else if HYPHENATION.contains cp then some .HYPHENATION
  else if VARIATION_SELECTORS.contains cp then some .VARIATION_SELECTORS
  else if FORMAT_CONTROLS.contains cp then some .FORMAT_CONTROLS
  else if SHORTHAND.contains cp then some .SHORTHAND
  else none

/-- Increment the counter of one category. -/
def incCategory : Option Category → Categories → Categories
  | none, c => c
  | some .ZERO_WIDTH, c => { c with ZERO_WIDTH := c.ZERO_WIDTH + 1 }
  | some .BIDI_CONTROLS, c => { c with BIDI_CONTROLS := c.BIDI_CONTROLS + 1 }
  | some .MATH_OPERATORS, c => { c with MATH_OPERATORS := c.MATH_OPERATORS + 1 }
  | some .HYPHENATION, c => { c with HYPHENATION := c.HYPHENATION + 1 }
  | some .VARIATION_SELECTORS, c => { c with VARIATION_SELECTORS := c.VARIATION_SELECTORS + 1 }
  | some .FORMAT_CONTROLS, c => { c with FORMAT_CONTROLS := c.FORMAT_CONTROLS + 1 }
  | some .SHORTHAND, c => { c with SHORTHAND := c.SHORTHAND + 1 }
  | some .TAG_CHARACTERS, c => { c with TAG_CHARACTERS := c.TAG_CHARACTERS + 1 }
  | some .IVS_CHARACTERS, c => { c with IVS_CHARACTERS := c.IVS_CHARACTERS + 1 }

/-- Record one registry hit of code point `cp` at code-unit index `i`:
`result.totalCount++`, `result.positions.push(i)` (the scan runs left to
right, so consing onto the positions of the later suffix yields the same
ascending list the source builds by pushing), and the category bump. -/
def bump (r : DetectionResult) (cp i : Nat) : DetectionResult :=
  { r with totalCount := r.totalCount + 1,
           positions := i :: r.positions,
           categories := incCategory (resolvedCategory cp) r.categories }

/-- The loop body of `detectInvisibleCharacters`, processing the code units
from absolute index `i` on.  `codePointAt` pairs a high surrogate with an
immediately following low surrogate; `if (!codePoint) continue` only fires
for a `0` unit (a combined pair is `≥ 0x10000`), and for a pair the loop
does `i++` once more, skipping the trailing surrogate. -/
def detectAux : List Nat → Nat → DetectionResult
  | [], _ => zeroResult
  | [u], i =>
      if u ≠ 0 ∧ invisible u then bump zeroResult u i else zeroResult
  | u :: l :: rest, i =>
      if isHigh u ∧ isLow l then
        -- surrogate pair: the combined code point is never 0
        if invisible (combine u l) then
          bump (detectAux rest (i + 2)) (combine u l) i
        else detectAux rest (i + 2)
      else
        if u ≠ 0 ∧ invisible u then bump (detectAux (l :: rest) (i + 1)) u i
        else detectAux (l :: rest) (i + 1)

/-- `detectInvisibleCharacters` from the source. -/
def detectInvisibleCharacters (text : List Nat) : DetectionResult :=
  detectAux text 0

/-- The loop body of `stripInvisibleCharacters`: rebuilds the string,
dropping registry hits (and, via `if (!codePoint) continue`, any `0`
unit), and copying or dropping surrogate pairs as whole units. -/
def stripAux : List Nat → List Nat
  | [] => []
  | [u] => if u = 0 then [] else if invisible u then [] else [u]
  | u :: l :: rest =>
      if isHigh u ∧ isLow l then
        if invisible (combine u l) then stripAux rest
        else u :: l :: stripAux rest
      else
        if u = 0 then stripAux (l :: rest)
        else if invisible u then stripAux (l :: rest)
        else u :: stripAux (l :: rest)

/-- `stripInvisibleCharacters` from the source. -/
def stripInvisibleCharacters (text : List Nat) : List Nat := stripAux text

/-- `text.codePointAt(k)` of JavaScript on our code-unit lists
(`0` for an out-of-range index, which the engine never queries). -/
def cpAt : List Nat → Nat → Nat
  | [], _ => 0
  | u :: rest, 0 =>
      match rest with
      | l :: _ => if isHigh u ∧ isLow l then combine u l else u
      | [] => u
  | _ :: rest, k + 1 => cpAt rest k

/-- The four ECMAScript line terminators (which `.` does not match and
after which a multiline `^` matches). -/
def isLineTerm (u : Nat) : Bool :=
  u == 10 || u == 13 || u == 0x2028 || u == 0x2029

/-- The ECMAScript `\s` class (also the set `String.prototype.trim`
removes): tab, the line terminators, vertical tab, form feed, space,
no-break space, Ogham space mark, the U+2000 block, the narrow/medium
spaces, ideographic space and the BOM. -/
def isWS (u : Nat) : Bool :=
  u == 9 || u == 10 || u == 11 || u == 12 || u == 13 || u == 32 ||
  u == 0xA0 || u == 0x1680 || (0x2000 ≤ u && u ≤ 0x200A) ||
  u == 0x2028 || u == 0x2029 || u == 0x202F || u == 0x205F ||
  u == 0x3000 || u == 0xFEFF

/-- The ECMAScript `\w` class used by `\b`: ASCII letters, digits and
underscore (the regexes of the source carry no `u` flag). -/
def isWordChar (u : Nat) : Bool :=
  (48 ≤ u && u ≤ 57) || (65 ≤ u && u ≤ 90) || (97 ≤ u && u ≤ 122) || u == 95

/-- `String.prototype.trim`: drop `isWS` units from both ends. -/
def jsTrim (l : List Nat) : List Nat :=
  ((l.dropWhile isWS).reverse.dropWhile isWS).reverse

/-!
Global regex replacement is modelled by a single generic left-to-right
scanner.  A matcher receives the previous original code unit (`none` at
the string start — this carries both the multiline `^` state and the
`\b` left-context), the unit `u` at the current position and the
remaining units, and answers `some (k, repl)` when the regex matches here
consuming `k + 1` units (`u` plus `k` more), to be replaced by `repl`;
`none` otherwise.  As in `String.prototype.replace`, scanning always
resumes in the original string after the end of a match.
-/

/-- Generic global-replace scanner (see the section comment), written with
a fuel parameter so that it is structurally recursive (and hence reduces
inside the kernel); every step consumes at least one code unit, so any
fuel exceeding the list length gives the same, fuel-independent result
(`replaceGo_congr`). -/
def replaceGo (matcher : Option Nat → Nat → List Nat → Option (Nat × List Nat)) :
    Nat → Option Nat → List Nat → List Nat
  | 0, _, _ => []
  | _ + 1, _, [] => []
  | fuel + 1, prev, u :: rest =>
      match matcher prev u rest with
      | some (k, repl) =>
          repl ++ replaceGo matcher fuel (some ((u :: rest).getD k 0)) (rest.drop k)
      | none => u :: replaceGo matcher fuel (some u) rest

/-- Generic global-replace scanner with the fuel instantiated. -/
def replaceGoP (matcher : Option Nat → Nat → List Nat → Option (Nat × List Nat))
    (prev : Option Nat) (s : List Nat) : List Nat :=
  replaceGo matcher (s.length + 1) prev s

/-- Generic match counter: the length of `text.match(regex)` for a global
regex, i.e. the number of non-overlapping matches found by the same scan
as `replaceGo` (fuelled likewise). -/
def countGo (matcher : Option Nat → Nat → List Nat → Option (Nat × List Nat)) :
    Nat → Option Nat → List Nat → Nat
  | 0, _, _ => 0
  | _ + 1, _, [] => 0
  | fuel + 1, prev, u :: rest =>
      match matcher prev u rest with
      | some (k, _) =>
          countGo matcher fuel (some ((u :: rest).getD k 0)) (rest.drop k) + 1
      | none => countGo matcher fuel (some u) rest

/-- Generic match counter with the fuel instantiated. -/
def countGoP (matcher : Option Nat → Nat → List Nat → Option (Nat × List Nat))
    (prev : Option Nat) (s : List Nat) : Nat :=
  countGo matcher (s.length + 1) prev s

/-- The scanner is fuel-independent once the fuel exceeds the length. -/
theorem replaceGo_congr (m : Option Nat → Nat → List Nat → Option (Nat × List Nat)) :
    ∀ f1 : Nat, ∀ f2 : Nat, ∀ prev : Option Nat, ∀ s : List Nat,
      s.length < f1 → s.length < f2 →
      replaceGo m f1 prev s = replaceGo m f2 prev s := by
  intro f1
  induction f1 with
  | zero => intro f2 prev s h1 _; omega
  | succ f1 ih =>
      intro f2 prev s h1 h2
      match f2, s with
      | 0, s => omega
      | f2 + 1, [] => rfl
      | f2 + 1, u :: rest =>
          simp only [List.length_cons] at h1 h2
          cases hm : m prev u rest with
          | none =>
              simp only [replaceGo, hm]
              rw [ih f2 (some u) rest (by omega) (by omega)]
          | some p =>
              obtain ⟨k, repl⟩ := p
              simp only [replaceGo, hm]
              rw [ih f2 (some ((u :: rest).getD k 0)) (rest.drop k)
                (by simp only [List.length_drop]; omega)
                (by simp only [List.length_drop]; omega)]

/-- The counter is fuel-independent once the fuel exceeds the length. -/
theorem countGo_congr (m : Option Nat → Nat → List Nat → Option (Nat × List Nat)) :
    ∀ f1 : Nat, ∀ f2 : Nat, ∀ prev : Option Nat, ∀ s : List Nat,
      s.length < f1 → s.length < f2 →
      countGo m f1 prev s = countGo m f2 prev s := by
  intro f1
  induction f1 with
  | zero => intro f2 prev s h1 _; omega
  | succ f1 ih =>
      intro f2 prev s h1 h2
      match f2, s with
      | 0, s => omega
      | f2 + 1, [] => rfl
      | f2 + 1, u :: rest =>
          simp only [List.length_cons] at h1 h2
          cases hm : m prev u rest with
          | none =>
              simp only [countGo, hm]
              rw [ih f2 (some u) rest (by omega) (by omega)]
          | some p =>
              obtain ⟨k, repl⟩ := p
              simp only [countGo, hm]
              rw [ih f2 (some ((u :: rest).getD k 0)) (rest.drop k)
                (by simp only [List.length_drop]; omega)
                (by simp only [List.length_drop]; omega)]

/-- Step equation of the scanner on a cons cell. -/
theorem replaceGoP_cons (m : Option Nat → Nat → List Nat → Option (Nat × List Nat))
    (prev : Option Nat) (u : Nat) (rest : List Nat) :
    replaceGoP m prev (u :: rest) =
      match m prev u rest with
      | some (k, repl) =>
          repl ++ replaceGoP m (some ((u :: rest).getD k 0)) (rest.drop k)
      | none => u :: replaceGoP m (some u) rest := by
  cases hm : m prev u rest with
  | none => simp only [replaceGoP, List.length_cons, replaceGo, hm]
  | some p =>
      obtain ⟨k, repl⟩ := p
      simp only [replaceGoP, List.length_cons, replaceGo, hm]
      exact congrArg (repl ++ ·) (replaceGo_congr m (rest.length + 1)
        ((rest.drop k).length + 1) (some ((u :: rest).getD k 0)) (rest.drop k)
        (by simp only [List.length_drop]; omega) (by omega))

/-- Step equation of the counter on a cons cell. -/
theorem countGoP_cons (m : Option Nat → Nat → List Nat → Option (Nat × List Nat))
    (prev : Option Nat) (u : Nat) (rest : List Nat) :
    countGoP m prev (u :: rest) =
      match m prev u rest with
      | some (k, _) => countGoP m (some ((u :: rest).getD k 0)) (rest.drop k) + 1
      | none => countGoP m (some u) rest := by
  cases hm : m prev u rest with
  | none => simp only [countGoP, List.length_cons, countGo, hm]
  | some p =>
      obtain ⟨k, repl⟩ := p
      simp only [countGoP, List.length_cons, countGo, hm]
      exact congrArg (· + 1) (countGo_congr m (rest.length + 1)
        ((rest.drop k).length + 1) (some ((u :: rest).getD k 0)) (rest.drop k)
        (by simp only [List.length_drop]; omega) (by omega))

/-- Whether the current position is a line start for a multiline `^`:
the string start or any position right after a line terminator. -/
def atLineStart : Option Nat → Bool
  | none => true
  | some p => isLineTerm p

/-- Matcher for `MARKDOWN_HEADER_REGEX = /^#{1,6}\s+/gm` (replacement
empty).  `#{1,6}` backtracking never helps: after fewer `#` the next unit
is still `#`, not `\s`, so the regex matches exactly when the full run of
`#` has length 1..6 and is followed by at least one `\s`; `\s+` is greedy
and may span line terminators. -/
def headerMatch (prev : Option Nat) (u : Nat) (rest : List Nat) :
    Option (Nat × List Nat) :=
  if atLineStart prev && u == 35 then
    let hs := rest.takeWhile (· == 35)
    if hs.length + 1 ≤ 6 then
      let ws := (rest.drop hs.length).takeWhile isWS
      if ws.length == 0 then none else some (hs.length + ws.length, [])
    else none
  else none

/-- Find the lazy `(.*?)` body for `MARKDOWN_BOLD_REGEX`: the least `j`
such that units `j, j+1` are both the delimiter `d` while all earlier
units are matched by `.` (hence are not line terminators); returns the
body together with its length. -/
def findBoldEnd (d : Nat) : List Nat → Option (Nat × List Nat)
  | a :: b :: rest =>
      if a == d && b == d then some (0, [])
      else if isLineTerm a then none
      else (findBoldEnd d (b :: rest)).map (fun p => (p.1 + 1, a :: p.2))
  | _ => none

/-- Matcher for `MARKDOWN_BOLD_REGEX = /\*\*(.*?)\*\*|__(.*?)__/g` with
replacement `'$1$2'` (the unmatched alternative's group is empty, so the
replacement is the matched body). -/
def boldMatch (_ : Option Nat) (u : Nat) (rest : List Nat) :
    Option (Nat × List Nat) :=
  if u == 42 then
    match rest with
    | l :: rest' =>
        if l == 42 then (findBoldEnd 42 rest').map (fun p => (p.1 + 3, p.2))
        else none
    | [] => none
  else if u == 95 then
    match rest with
    | l :: rest' =>
        if l == 95 then (findBoldEnd 95 rest').map (fun p => (p.1 + 3, p.2))
        else none
    | [] => none
  else none

/-- Matcher for `REPEATING_CHARS_REGEX = /(.)\1{2,}/g` with replacement
`'$1'`: a maximal run of at least three identical units whose first unit
is matched by `.` (so not a line terminator) collapses to one unit. -/
def repeatMatch (_ : Option Nat) (u : Nat) (rest : List Nat) :
    Option (Nat × List Nat) :=
  if isLineTerm u then none
  else
    let run := rest.takeWhile (· == u)
    if 2 ≤ run.length then some (run.length, [u]) else none

/-- The character class `[-=_*]` of `FORMATTING_LINES_REGEX`. -/
def isFormatChar (u : Nat) : Bool :=
  u == 45 || u == 61 || u == 95 || u == 42

/-- Greedy-with-backtracking search for `\s*$` (multiline `$`): the
largest `k ≤ limit` such that after dropping `k` units of `t` the scan is
at the string end or before a line terminator. -/
def findFormatK (t : List Nat) : Nat → Option Nat
  | 0 =>
      (match t with
       | [] => some 0
       | h :: _ => if isLineTerm h then some 0 else none)
  | k + 1 =>
      (match t.drop (k + 1) with
       | [] => some (k + 1)
       | h :: _ => if isLineTerm h then some (k + 1) else findFormatK t k)

/-- Matcher for `FORMATTING_LINES_REGEX = /^[-=_*]{3,}\s*$/gm`
(replacement empty).  Backtracking `[-=_*]{3,}` never helps (after a
shorter run the next unit is still in the class, failing `\s*$`), so the
run is maximal and must have length at least 3; `\s*` then takes the
largest whitespace prefix that leaves `$` satisfied. -/
def formatMatch (prev : Option Nat) (u : Nat) (rest : List Nat) :
    Option (Nat × List Nat) :=
  if atLineStart prev && isFormatChar u then
    let run := rest.takeWhile isFormatChar
    if 2 ≤ run.length then
      let tailAfter := rest.drop run.length
      let ws := tailAfter.takeWhile isWS
      match findFormatK tailAfter ws.length with
      | some k => some (run.length + k, [])
      | none => none
    else none
  else none

/-- Matcher for `EXTRA_WHITESPACE_REGEX = /\s{2,}/g` with replacement a
single space: a maximal run of at least two `\s` units. -/
def extraWSMatch (_ : Option Nat) (u : Nat) (rest : List Nat) :
    Option (Nat × List Nat) :=
  if isWS u then
    let run := rest.takeWhile isWS
    if 1 ≤ run.length then some (run.length, [32]) else none
  else none

/-- Matcher for the final `/\n{3,}/g` pass with replacement `'\n\n'`:
a maximal run of at least three newlines becomes exactly two. -/
def newlineMatch (_ : Option Nat) (u : Nat) (rest : List Nat) :
    Option (Nat × List Nat) :=
  if u == 10 then
    let run := rest.takeWhile (· == 10)
    if 2 ≤ run.length then some (run.length, [10, 10]) else none
  else none

/-- Case canonicalization of one code unit for the `i` regex flag,
modelled on the ASCII range (the JS engine additionally folds non-ASCII
letters by Unicode single-character uppercasing; no claim involves those,
and every primitive below uses this same folding consistently). -/
def ciUpper (u : Nat) : Nat := if 97 ≤ u ∧ u ≤ 122 then u - 32 else u

/-- Matcher for the word-exchange regex
`new RegExp('\\b' + escapeRegex(word) + '\\b', 'gi')` with replacement
`good`.  `escapeRegex` makes `word` match purely literally, so the model
compares code units under `i`-canonicalization directly; `\b` holds where
the `isWordChar`-ness of the two surrounding text units differs (string
ends count as non-word).  The engine only builds this regex for words
that are non-empty after trimming; for an empty `word` the model declines
to match.  The replacement is inserted literally (JS would additionally
expand dollar escapes inside `good`; no claim involves such goodWords). -/
def exchangeMatch (w good : List Nat) (prev : Option Nat) (u : Nat)
    (rest : List Nat) : Option (Nat × List Nat) :=
  match w with
  | [] => none
  | _ :: _ =>
      let s := u :: rest
      let leftWord := match prev with | none => false | some p => isWordChar p
      let lastC := s.getD (w.length - 1) 0
      let rightWord := match s.drop w.length with
        | [] => false
        | a :: _ => isWordChar a
      if (s.take w.length).map ciUpper == w.map ciUpper &&
         leftWord != isWordChar u && isWordChar lastC != rightWord then
        some (w.length - 1, good)
      else none

/-- The markdown-header removal pass of `cleanText`. -/
def headerPass (t : List Nat) : List Nat := replaceGoP headerMatch none t

/-- The markdown-bold unwrapping pass of `cleanText`. -/
def boldPass (t : List Nat) : List Nat := replaceGoP boldMatch none t

/-- The repeating-character collapse pass of `cleanText`. -/
def repeatingPass (t : List Nat) : List Nat := replaceGoP repeatMatch none t

/-- The formatting-line removal pass of `cleanText`. -/
def formattingPass (t : List Nat) : List Nat := replaceGoP formatMatch none t

/-- The whitespace normalization pass of `cleanText`. -/
def whitespacePass (t : List Nat) : List Nat := replaceGoP extraWSMatch none t

/-- The final `result.replace(/\n{3,}/g, '\n\n')` pass of `cleanText`. -/
def newlinesPass (t : List Nat) : List Nat := replaceGoP newlineMatch none t

/-- One whole-word case-insensitive global replacement, as performed per
surface form in the word-exchange step of `cleanText`. -/
def replaceWholeWord (w good t : List Nat) : List Nat :=
  replaceGoP (exchangeMatch w good) none t

/-- Number of matches of the word-exchange regex of `word` in `text`
(`text.match(regex)` length in `detectAllIssues`). -/
def countWholeWordCI (w t : List Nat) : Nat :=
  countGoP (exchangeMatch w []) none t

/-- `text.match(MARKDOWN_HEADER_REGEX)` length. -/
def countHeader (t : List Nat) : Nat := countGoP headerMatch none t

/-- `text.match(MARKDOWN_BOLD_REGEX)` length. -/
def countBold (t : List Nat) : Nat := countGoP boldMatch none t

/-- `text.match(REPEATING_CHARS_REGEX)` length. -/
def countRepeating (t : List Nat) : Nat := countGoP repeatMatch none t

/-- `text.match(FORMATTING_LINES_REGEX)` length. -/
def countFormatting (t : List Nat) : Nat := countGoP formatMatch none t

/-- `text.match(EXTRA_WHITESPACE_REGEX)` length. -/
def countExtraWS (t : List Nat) : Nat := countGoP extraWSMatch none t

/-- The `CleaningOptions` record of the source, one flag per pass. -/
structure CleaningOptions where
  invisibleChars : Bool
  markdownHeaders : Bool
  markdownBold : Bool
  repeatingChars : Bool
  formattingLines : Bool
  extraWhitespace : Bool
  wordExchanges : Bool
deriving DecidableEq

/-- The `WordExchange` record of the source. -/
structure WordExchange where
  id : List Nat
  badWord : List Nat
  goodWord : List Nat
  enabled : Bool
deriving DecidableEq

/-- The `VarianceSettings` record of the source. -/
structure VarianceSettings where
  enabled : Bool
  synonymVariation : Bool
  caseVariation : Bool
  pluralVariation : Bool
deriving DecidableEq

/-- An exchange passes the source's filter
`ex.enabled && ex.badWord.trim() && ex.goodWord.trim()`
(a string is truthy when non-empty). -/
def activeExchange (ex : WordExchange) : Bool :=
  ex.enabled && !(jsTrim ex.badWord).isEmpty && !(jsTrim ex.goodWord).isEmpty

/-- `String.prototype.toLowerCase`, modelled on the ASCII range per unit
(Unicode full lowercasing of other units is not involved in any claim;
all case primitives here use the same ASCII folding consistently). -/
def toLowerStr (w : List Nat) : List Nat :=
  w.map (fun u => if 65 ≤ u ∧ u ≤ 90 then u + 32 else u)

/-- `String.prototype.toUpperCase`, modelled on the ASCII range per unit
(see `toLowerStr`). -/
def toUpperStr (w : List Nat) : List Nat :=
  w.map (fun u => if 97 ≤ u ∧ u ≤ 122 then u - 32 else u)

/-- `word.charAt(0).toUpperCase() + word.slice(1).toLowerCase()` from
`generateWordVariations` (ASCII case model, see `toLowerStr`). -/
def capitalizeJS (w : List Nat) : List Nat :=
  match w with
  | [] => []
  | c :: rest => (if 97 ≤ c ∧ c ≤ 122 then c - 32 else c) :: toLowerStr rest

/-- `word.endsWith('s')` on code units. -/
def endsWithS (w : List Nat) : Bool := w.getLast? == some 115

/-- `word.endsWith('y')` on code units. -/
def endsWithY (w : List Nat) : Bool := w.getLast? == some 121

/-- `[...new Set(array)]` of JavaScript: deduplicate keeping the first
occurrence of each element, preserving order. -/
def jsDedup (l : List (List Nat)) : List (List Nat) :=
  l.foldl (fun acc x => if acc.contains x then acc else acc ++ [x]) []

/-- `generateWordVariations` from the source: the word itself, then the
case variations, then the basic plural variations, deduplicated at the
end; when variance is disabled, just `[word]` (without the dedup step,
which the source only reaches on the enabled path). -/
def generateWordVariations (word : List Nat) (vs : VarianceSettings) :
    List (List Nat) :=
  if vs.enabled then
    jsDedup
      ([word] ++
       (if vs.caseVariation then
          [toLowerStr word, toUpperStr word, capitalizeJS word]
        else []) ++
       (if vs.pluralVariation then
          (if !endsWithS word then [word ++ [115]] else []) ++
          (if endsWithS word && decide (1 < word.length) then [word.dropLast] else []) ++
          (if endsWithY word && decide (1 < word.length) then [word.dropLast ++ [105, 101, 115]] else [])
        else []))
  else [word]

/-- `detectAllIssues` from the source: the invisible-character result
(all-zero when the flag is off), plus the `additionalCleaning` counts;
the word-exchange count sums, over the active exchanges, the number of
whole-word case-insensitive matches of the literal `badWord` in the
original text. -/
def detectAllIssues (text : List Nat) (options : CleaningOptions)
    (wordExchanges : Option (List WordExchange)) : DetectionResult :=
  let invisibleResult :=
    if options.invisibleChars then detectInvisibleCharacters text else zeroResult
  let wordExchangeCount :=
    match wordExchanges with
    | some wes =>
        if options.wordExchanges then
          (wes.filter activeExchange).foldl
            (fun n ex => n + countWholeWordCI ex.badWord text) 0
        else 0
    | none => 0
  { invisibleResult with
    additionalCleaning := some
      { markdownHeaders := if options.markdownHeaders then countHeader text else 0
        markdownBold := if options.markdownBold then countBold text else 0
        repeatingChars := if options.repeatingChars then countRepeating text else 0
        formattingLines := if options.formattingLines then countFormatting text else 0
        extraWhitespace := if options.extraWhitespace then countExtraWS text else 0
        wordExchanges := wordExchangeCount } }

/-- The `wordExchanges` count of a result, with a missing
`additionalCleaning` read as zero (as the spec directs callers to). -/
def wordExchangeCountOf (r : DetectionResult) : Nat :=
  match r.additionalCleaning with
  | some a => a.wordExchanges
  | none => 0

/-- The word-exchange application step of `cleanText`: for each active
exchange in order, replace every whole-word case-insensitive occurrence
of the bad word (of each of its surface forms, when variance is enabled)
by the good word, each replacement acting on the already-rewritten text. -/
def applyExchanges (t : List Nat) (wes : List WordExchange)
    (vs : Option VarianceSettings) : List Nat :=
  (wes.filter activeExchange).foldl
    (fun acc ex =>
      match vs with
      | some v =>
          if v.enabled then
            (generateWordVariations ex.badWord v).foldl
              (fun a w => replaceWholeWord w ex.goodWord a) acc
          else replaceWholeWord ex.badWord ex.goodWord acc
      | none => replaceWholeWord ex.badWord ex.goodWord acc)
    t

/-- `cleanText` from the source: the seven optional passes in their fixed
order, then the unconditional newline collapse and trim. -/
def cleanText (text : List Nat) (options : CleaningOptions)
    (wordExchanges : Option (List WordExchange))
    (varianceSettings : Option VarianceSettings) : List Nat :=
  let r1 := if options.invisibleChars then stripInvisibleCharacters text else text
  let r2 := if options.markdownHeaders then headerPass r1 else r1
  let r3 := if options.markdownBold then boldPass r2 else r2
  let r4 := if options.repeatingChars then repeatingPass r3 else r3
  let r5 := if options.formattingLines then formattingPass r4 else r4
  let r6 := if options.extraWhitespace then whitespacePass r5 else r5
  let r7 :=
    match wordExchanges with
    | some wes =>
        if options.wordExchanges then applyExchanges r6 wes varianceSettings
        else r6
    | none => r6
  jsTrim (newlinesPass r7)

/-- Modelled from the spec: the `normalizeWhitespaceAndTrim(t)` that §8 of
the spec equates `clean(t, allEnabled)` with, for texts free of registry
code points — collapse every run of two or more whitespace characters to
a single space, then trim.  This definition follows the spec's words and
exists only to be compared against `cleanText`. -/
def normalizeWhitespaceAndTrim (t : List Nat) : List Nat :=
  jsTrim (whitespacePass t)

/-- All seven cleaning options enabled. -/
def allOptions : CleaningOptions := ⟨true, true, true, true, true, true, true⟩

/-- Only `repeatingChars` enabled. -/
def repeatOnlyOptions : CleaningOptions :=
  ⟨false, false, false, true, false, false, false⟩

/-! ## Basic facts about the registry and the detector -/

/-- Every registry hit resolves to a category: the invisible set is the
union of the lists and ranges that `resolvedCategory` scans. -/
theorem resolvedCategory_isSome (cp : Nat) (h : invisible cp = true) :
    ∃ c, resolvedCategory cp = some c := by
  simp only [invisible, Bool.or_eq_true, decide_eq_true_eq] at h
  unfold resolvedCategory
  split_ifs <;> first
    | exact ⟨_, rfl⟩
    | (exact absurd h (by tauto))

/-- `incCategory` with a resolved category adds one to the category sum. -/
theorem sumCategories_incCategory (c : Category) (cs : Categories) :
    sumCategories (incCategory (some c) cs) = sumCategories cs + 1 := by
  cases c <;> simp [incCategory, sumCategories] <;> omega

/-- `bump` keeps `totalCount` equal to the category sum for registry hits. -/
theorem bump_sum (r : DetectionResult) (cp i : Nat) (h : invisible cp = true)
    (hr : r.totalCount = sumCategories r.categories) :
    (bump r cp i).totalCount = sumCategories (bump r cp i).categories := by
  obtain ⟨c, hc⟩ := resolvedCategory_isSome cp h
  simp [bump, hc, sumCategories_incCategory, hr]

/-- In every `detectAux` result, `totalCount` equals the category sum. -/
theorem detectAux_totalCount_eq_sum (us : List Nat) (i : Nat) :
    (detectAux us i).totalCount = sumCategories (detectAux us i).categories := by
  induction us, i using detectAux.induct with
  | case1 i => simp [detectAux, zeroResult, zeroCategories, sumCategories]
  | case2 u i h =>
      simp only [detectAux, if_pos h]
      exact bump_sum _ _ _ h.2
        (by simp [zeroResult, zeroCategories, sumCategories])
  | case3 u i h =>
      simp only [detectAux, if_neg h]
      simp [zeroResult, zeroCategories, sumCategories]
  | case4 u l rest i hp hinv ih =>
      simp only [detectAux, if_pos hp, if_pos hinv]
      exact bump_sum _ _ _ hinv ih
  | case5 u l rest i hp hinv ih =>
      simp only [detectAux, if_pos hp, if_neg hinv]
      exact ih
  | case6 u l rest i hp hc ih =>
      simp only [detectAux, if_neg hp, if_pos hc]
      exact bump_sum _ _ _ hc.2 ih
  | case7 u l rest i hp hc ih =>
      simp only [detectAux, if_neg hp, if_neg hc]
      exact ih

/-- C3.  For every text `t`, `detectInvisibleCharacters(t).totalCount`
equals the sum of the nine per-category counters of the result. -/
theorem detect_totalCount_eq_sum_categories (t : List Nat) :
    (detectInvisibleCharacters t).totalCount =
      sumCategories (detectInvisibleCharacters t).categories :=
  detectAux_totalCount_eq_sum t 0

/-- C8.  The registry classifies both range boundaries `0xE0000` and
`0xE007F` as invisible TAG characters, while `0xE0080` is not invisible:
a text consisting of only that code point (the surrogate pair
`[0xDB40, 0xDC80]`) yields `totalCount == 0`, whereas the boundary code
points are detected and counted as TAG characters. -/
theorem tag_boundary_classification :
    invisible 0xE0000 = true ∧
    resolvedCategory 0xE0000 = some .TAG_CHARACTERS ∧
    invisible 0xE007F = true ∧
    resolvedCategory 0xE007F = some .TAG_CHARACTERS ∧
    invisible 0xE0080 = false ∧
    (detectInvisibleCharacters [0xDB40, 0xDC80]).totalCount = 0 ∧
    (detectInvisibleCharacters [0xDB40, 0xDC00]).totalCount = 1 ∧
    (detectInvisibleCharacters [0xDB40, 0xDC00]).categories.TAG_CHARACTERS = 1 := by
  decide

/-- C9.  `stripInvisibleCharacters` never emits a `U+0000` unit: the
`if (!codePoint) continue` of the source drops every NUL from the output,
even though `0` is not in the invisible-character registry. -/
theorem strip_no_nul :
    invisible 0 = false ∧
    ∀ t : List Nat, 0 ∉ stripInvisibleCharacters t := by
  refine ⟨by decide, fun t => ?_⟩
  show 0 ∉ stripAux t
  induction t using stripAux.induct with
  | case1 => simp [stripAux]
  | case2 => simp [stripAux]
  | case3 u h0 hinv => simp [stripAux, if_neg h0, if_pos hinv]
  | case4 u h0 hinv =>
      simp only [stripAux, if_neg h0, if_neg hinv]
      simp only [List.mem_singleton]
      exact fun h => h0 h.symm
  | case5 u l rest hp hinv ih =>
      simp only [stripAux, if_pos hp, if_pos hinv]
      exact ih
  | case6 u l rest hp hinv ih =>
      simp only [stripAux, if_pos hp, if_neg hinv]
      have hu : 0xD800 ≤ u := by
        have := hp.1
        simp only [isHigh, decide_eq_true_eq] at this
        omega
      have hl : 0xDC00 ≤ l := by
        have := hp.2
        simp only [isLow, decide_eq_true_eq] at this
        omega
      simp only [List.mem_cons]
      rintro (h | h | h)
      · omega
      · omega
      · exact ih h
  | case7 l rest hp ih =>
      simp only [stripAux, if_neg hp, if_pos rfl]
      exact ih
  | case8 u l rest hp h0 hinv ih =>
      simp only [stripAux, if_neg hp, if_neg h0, if_pos hinv]
      exact ih
  | case9 u l rest hp h0 hinv ih =>
      simp only [stripAux, if_neg hp, if_neg h0, if_neg hinv]
      simp only [List.mem_cons]
      rintro (h | h)
      · exact h0 h.symm
      · exact ih h

/-! ## Idempotence of stripping (C1) -/

/-- Well-formed UTF-16: every unit is a genuine 16-bit unit, every high
surrogate is immediately followed by a low surrogate, and no low
surrogate appears unpaired. -/
def wfUnits : List Nat → Bool
  | [] => true
  | u :: rest =>
      if isHigh u then
        match rest with
        | l :: rest' => isLow l && wfUnits rest'
        | [] => false
      else decide (u < 0x10000) && !isLow u && wfUnits rest

/-- All code points of a well-formed unit list are outside the registry
and non-NUL (the two classes `stripInvisibleCharacters` removes). -/
def noStrippableWF : List Nat → Bool
  | [] => true
  | u :: rest =>
      if isHigh u then
        match rest with
        | l :: rest' => isLow l && !invisible (combine u l) && noStrippableWF rest'
        | [] => false
      else decide (u ≠ 0) && !invisible u && noStrippableWF rest

/-- Unfolding `wfUnits` over a cons with a non-surrogate head. -/
theorem wfUnits_cons (u : Nat) (s : List Nat) (hu : ¬isHigh u = true) :
    wfUnits (u :: s) = (decide (u < 0x10000) && !isLow u && wfUnits s) := by
  cases s <;> simp [wfUnits, if_neg hu]

/-- Unfolding `noStrippableWF` over a cons with a non-surrogate head. -/
theorem noStrippableWF_cons (u : Nat) (s : List Nat) (hu : ¬isHigh u = true) :
    noStrippableWF (u :: s) =
      (decide (u ≠ 0) && !invisible u && noStrippableWF s) := by
  cases s <;> simp [noStrippableWF, if_neg hu]

/-- Stripping a well-formed text yields a well-formed text all of whose
code points are non-strippable. -/
theorem stripAux_wf (t : List Nat) (h : wfUnits t = true) :
    wfUnits (stripAux t) = true ∧ noStrippableWF (stripAux t) = true := by
  induction t using stripAux.induct with
  | case1 => simp [stripAux, wfUnits, noStrippableWF]
  | case2 => simp [stripAux, wfUnits, noStrippableWF]
  | case3 u h0 hinv =>
      simp [stripAux, if_neg h0, if_pos hinv, wfUnits, noStrippableWF]
  | case4 u h0 hinv =>
      have hu : ¬isHigh u = true := by
        intro hh
        simp only [wfUnits, if_pos hh] at h
        exact absurd h (by decide)
      have hinv2 : invisible u = false := by
        revert hinv; cases invisible u <;> simp
      simp only [stripAux, if_neg h0, if_neg hinv]
      simp only [wfUnits, if_neg hu] at h
      simp only [wfUnits, noStrippableWF, if_neg hu]
      exact ⟨h, by simp [hinv2, h0]⟩
  | case5 u l rest hp hinv ih =>
      simp only [wfUnits, if_pos hp.1, Bool.and_eq_true] at h
      simp only [stripAux, if_pos hp, if_pos hinv]
      exact ih h.2
  | case6 u l rest hp hinv ih =>
      simp only [wfUnits, if_pos hp.1, Bool.and_eq_true] at h
      have hinv2 : invisible (combine u l) = false := by
        revert hinv; cases invisible (combine u l) <;> simp
      obtain ⟨hwf, hns⟩ := ih h.2
      simp only [stripAux, if_pos hp, if_neg hinv]
      constructor
      · simp only [wfUnits, if_pos hp.1]
        simp [h.1, hwf]
      · simp only [noStrippableWF, if_pos hp.1]
        simp [h.1, hinv2, hns]
  | case7 l rest hp ih =>
      -- leading 0 unit: not a high surrogate, well-formedness passes down
      simp only [wfUnits, if_neg (show ¬isHigh 0 = true by decide),
        Bool.and_eq_true] at h
      simp only [stripAux, if_neg hp, if_pos rfl]
      exact ih h.2
  | case8 u l rest hp h0 hinv ih =>
      have hu : ¬isHigh u = true := by
        intro hh
        simp only [wfUnits, if_pos hh, Bool.and_eq_true] at h
        exact hp ⟨hh, h.1⟩
      simp only [wfUnits, if_neg hu, Bool.and_eq_true] at h
      simp only [stripAux, if_neg hp, if_neg h0, if_pos hinv]
      exact ih h.2
  | case9 u l rest hp h0 hinv ih =>
      have hu : ¬isHigh u = true := by
        intro hh
        simp only [wfUnits, if_pos hh, Bool.and_eq_true] at h
        exact hp ⟨hh, h.1⟩
      have hinv2 : invisible u = false := by
        revert hinv; cases invisible u <;> simp
      simp only [wfUnits, if_neg hu, Bool.and_eq_true] at h
      obtain ⟨hwf, hns⟩ := ih h.2
      simp only [stripAux, if_neg hp, if_neg h0, if_neg hinv]
      constructor
      · rw [wfUnits_cons _ _ hu]
        simp [h.1.1, h.1.2, hwf]
      · rw [noStrippableWF_cons _ _ hu]
        simp [h0, hinv2, hns]

/-- Stripping fixes every well-formed text with no strippable code point. -/
theorem stripAux_fixed (s : List Nat) (hwf : wfUnits s = true)
    (hns : noStrippableWF s = true) : stripAux s = s := by
  induction s using stripAux.induct with
  | case1 => rfl
  | case2 => exact absurd hns (by decide)
  | case3 u h0 hinv =>
      have hu : ¬isHigh u = true := by
        intro hh
        simp only [wfUnits, if_pos hh] at hwf
        exact absurd hwf (by decide)
      simp only [noStrippableWF, if_neg hu] at hns
      simp [hinv] at hns
  | case4 u h0 hinv =>
      simp [stripAux, if_neg h0, if_neg hinv]
  | case5 u l rest hp hinv ih =>
      simp only [noStrippableWF, if_pos hp.1] at hns
      simp [hinv] at hns
  | case6 u l rest hp hinv ih =>
      simp only [wfUnits, if_pos hp.1, Bool.and_eq_true] at hwf
      simp only [noStrippableWF, if_pos hp.1, Bool.and_eq_true] at hns
      simp only [stripAux, if_pos hp, if_neg hinv]
      rw [ih hwf.2 hns.2]
  | case7 l rest hp ih =>
      simp only [noStrippableWF,
        if_neg (show ¬isHigh 0 = true by decide)] at hns
      simp at hns
  | case8 u l rest hp h0 hinv ih =>
      have hu : ¬isHigh u = true := by
        intro hh
        simp only [wfUnits, if_pos hh, Bool.and_eq_true] at hwf
        exact hp ⟨hh, hwf.1⟩
      simp only [noStrippableWF, if_neg hu] at hns
      simp [hinv] at hns
  | case9 u l rest hp h0 hinv ih =>
      have hu : ¬isHigh u = true := by
        intro hh
        simp only [wfUnits, if_pos hh, Bool.and_eq_true] at hwf
        exact hp ⟨hh, hwf.1⟩
      simp only [wfUnits, if_neg hu, Bool.and_eq_true] at hwf
      simp only [noStrippableWF, if_neg hu, Bool.and_eq_true] at hns
      simp only [stripAux, if_neg hp, if_neg h0, if_neg hinv]
      rw [ih hwf.2 hns.2]

/-- C1 (amended).  For every well-formed UTF-16 text `t` (no unpaired
surrogate halves), stripping invisible characters is idempotent. -/
theorem strip_idempotent_of_wf (t : List Nat) (h : wfUnits t = true) :
    stripInvisibleCharacters (stripInvisibleCharacters t) =
      stripInvisibleCharacters t :=
  stripAux_fixed _ (stripAux_wf t h).1 (stripAux_wf t h).2

/-- C1 counterexample.  On the text `[0xDB40, U+200B, 0xDC00]` — a lone
high surrogate, a zero-width space, a lone low surrogate — the first
strip removes the zero-width space and thereby joins the two lone halves
into the surrogate pair for `U+E0000`, a TAG character, which the second
strip removes: stripping is not idempotent on all texts. -/
theorem strip_not_idempotent :
    stripInvisibleCharacters (stripInvisibleCharacters [0xDB40, 0x200B, 0xDC00]) ≠
      stripInvisibleCharacters [0xDB40, 0x200B, 0xDC00] ∧
    stripInvisibleCharacters [0xDB40, 0x200B, 0xDC00] = [0xDB40, 0xDC00] ∧
    stripInvisibleCharacters [0xDB40, 0xDC00] = [] := by
  refine ⟨?_, by decide, by decide⟩
  decide

/-- C1 witness: the amended theorem applied to the concrete well-formed
text `"A" + U+200B`. -/
theorem strip_idempotent_witness :
    wfUnits [65, 0x200B] = true ∧
    stripInvisibleCharacters (stripInvisibleCharacters [65, 0x200B]) =
      stripInvisibleCharacters [65, 0x200B] :=
  ⟨by decide, strip_idempotent_of_wf [65, 0x200B] (by decide)⟩

/-! ## Texts without registry code points (C2) -/

/-- Stripping is the identity on texts none of whose code points is a
registry hit or NUL. -/
theorem stripAux_id_of_clean (t : List Nat)
    (h : ∀ k, k < t.length → invisible (cpAt t k) = false ∧ cpAt t k ≠ 0) :
    stripAux t = t := by
  induction t using stripAux.induct with
  | case1 => rfl
  | case2 =>
      have h0 := h 0 (by simp)
      simp [cpAt] at h0
  | case3 u h0 hinv =>
      have hh := h 0 (by simp)
      simp only [cpAt] at hh
      exact absurd hinv (by simp [hh.1])
  | case4 u h0 hinv =>
      simp [stripAux, if_neg h0, if_neg hinv]
  | case5 u l rest hp hinv ih =>
      have hh := h 0 (by simp)
      simp only [cpAt, if_pos hp] at hh
      exact absurd hinv (by simp [hh.1])
  | case6 u l rest hp hinv ih =>
      simp only [stripAux, if_pos hp, if_neg hinv]
      have hrest : ∀ k, k < rest.length →
          invisible (cpAt rest k) = false ∧ cpAt rest k ≠ 0 := by
        intro k hk
        have := h (k + 2) (by simp only [List.length_cons]; omega)
        simpa only [cpAt] using this
      rw [ih hrest]
  | case7 l rest hp ih =>
      have hh := h 0 (by simp)
      rw [show cpAt (0 :: l :: rest) 0 = 0 by simp [cpAt, isHigh]] at hh
      exact absurd rfl hh.2
  | case8 u l rest hp h0 hinv ih =>
      have hh := h 0 (by simp)
      simp only [cpAt, if_neg hp] at hh
      exact absurd hinv (by simp [hh.1])
  | case9 u l rest hp h0 hinv ih =>
      simp only [stripAux, if_neg hp, if_neg h0, if_neg hinv]
      have hrest : ∀ k, k < (l :: rest).length →
          invisible (cpAt (l :: rest) k) = false ∧ cpAt (l :: rest) k ≠ 0 := by
        intro k hk
        simp only [List.length_cons] at hk
        have := h (k + 1) (by simp only [List.length_cons]; omega)
        simpa only [cpAt] using this
      rw [ih hrest]

/-- The detector counts nothing on a text with no registry code points. -/
theorem detectAux_total_zero (us : List Nat) (i : Nat)
    (h : ∀ k, k < us.length → invisible (cpAt us k) = false) :
    (detectAux us i).totalCount = 0 := by
  induction us, i using detectAux.induct with
  | case1 i => simp [detectAux, zeroResult]
  | case2 u i hc =>
      have hh := h 0 (by simp)
      simp only [cpAt] at hh
      exact absurd hc.2 (by simp [hh])
  | case3 u i hc =>
      simp [detectAux, if_neg hc, zeroResult]
  | case4 u l rest i hp hinv ih =>
      have hh := h 0 (by simp)
      simp only [cpAt, if_pos hp] at hh
      exact absurd hinv (by simp [hh])
  | case5 u l rest i hp hinv ih =>
      simp only [detectAux, if_pos hp, if_neg hinv]
      have hrest : ∀ k, k < rest.length → invisible (cpAt rest k) = false := by
        intro k hk
        have := h (k + 2) (by simp only [List.length_cons]; omega)
        simpa only [cpAt] using this
      exact ih hrest
  | case6 u l rest i hp hc ih =>
      have hh := h 0 (by simp)
      simp only [cpAt, if_neg hp] at hh
      exact absurd hc.2 (by simp [hh])
  | case7 u l rest i hp hc ih =>
      simp only [detectAux, if_neg hp, if_neg hc]
      have hrest : ∀ k, k < (l :: rest).length →
          invisible (cpAt (l :: rest) k) = false := by
        intro k hk
        simp only [List.length_cons] at hk
        have := h (k + 1) (by simp only [List.length_cons]; omega)
        simpa only [cpAt] using this
      exact ih hrest

/-- C2 (amended).  For every text `t` none of whose code points is a
registry hit or `U+0000`: detection with all options enabled finds zero
invisible characters, the invisible-character stripping pass leaves `t`
unchanged, and therefore `cleanText` with all options enabled equals
`cleanText` with every option except `invisibleChars` enabled — the
invisible-character pass is a no-op.  (The original claim's stronger
equation `clean(t, allEnabled) = normalizeWhitespaceAndTrim(t)` fails
because the other enabled passes may still rewrite `t`.) -/
theorem clean_invisible_noop (t : List Nat)
    (h : ∀ k, k < t.length → invisible (cpAt t k) = false ∧ cpAt t k ≠ 0) :
    stripInvisibleCharacters t = t ∧
    (∀ we, (detectAllIssues t allOptions we).totalCount = 0) ∧
    (∀ we vs, cleanText t allOptions we vs =
      cleanText t { allOptions with invisibleChars := false } we vs) := by
  have hs : stripInvisibleCharacters t = t := stripAux_id_of_clean t h
  refine ⟨hs, fun we => ?_, fun we vs => ?_⟩
  · have hz := detectAux_total_zero t 0 (fun k hk => (h k hk).1)
    cases we <;>
      simp [detectAllIssues, allOptions, detectInvisibleCharacters, hz]
  · simp [cleanText, allOptions, hs]

/-- C2 counterexample.  The text `"aaa"` contains no registry code point,
yet `cleanText` with all options enabled collapses it to `"a"` via the
repeating-characters pass, so `clean(t, allEnabled)` is not
`normalizeWhitespaceAndTrim(t)`. -/
theorem clean_not_normalizeTrim :
    ((List.range ([97, 97, 97] : List Nat).length).all
      (fun k => !invisible (cpAt [97, 97, 97] k))) = true ∧
    cleanText [97, 97, 97] allOptions none none ≠
      normalizeWhitespaceAndTrim [97, 97, 97] := by
  constructor
  · decide
  · decide

/-- C2 witness: the amended theorem applied to the concrete text `"A"`. -/
theorem clean_invisible_noop_witness :
    stripInvisibleCharacters [65] = [65] ∧
    (detectAllIssues [65] allOptions none).totalCount = 0 ∧
    cleanText [65] allOptions none none =
      cleanText [65] { allOptions with invisibleChars := false } none none :=
  ⟨(clean_invisible_noop [65] (by decide)).1,
   (clean_invisible_noop [65] (by decide)).2.1 none,
   (clean_invisible_noop [65] (by decide)).2.2 none none⟩

/-! ## Word-exchange detection count (C6) -/

/-- Accumulating a count over a fold is adding the mapped sum. -/
theorem foldl_add_map_sum (f : WordExchange → Nat) :
    ∀ (l : List WordExchange) (n : Nat),
      l.foldl (fun n ex => n + f ex) n = n + (l.map f).sum := by
  intro l
  induction l with
  | nil => intro n; simp
  | cons a l ih =>
      intro n
      simp only [List.foldl_cons, List.map_cons, List.sum_cons]
      rw [ih]
      omega

/-- C6.  With `wordExchanges` enabled and an exchange list supplied,
`detectAllIssues` reports in `additionalCleaning.wordExchanges` the sum,
over the active exchanges (enabled, with non-empty trimmed `badWord` and
`goodWord`), of the number of whole-word case-insensitive matches of the
literal `badWord` in the text — variance expansions are never counted
(`detectAllIssues` does not even receive the variance settings). -/
theorem detect_wordExchanges_count (t : List Nat) (opts : CleaningOptions)
    (we : List WordExchange) (h : opts.wordExchanges = true) :
    wordExchangeCountOf (detectAllIssues t opts (some we)) =
      ((we.filter activeExchange).map
        (fun ex => countWholeWordCI ex.badWord t)).sum := by
  simp only [detectAllIssues, wordExchangeCountOf, h, if_true]
  rw [foldl_add_map_sum]
  simp

/-- C6 witness: the exchange `bad → good` counted twice in `"bad Bad"`. -/
theorem detect_wordExchanges_count_witness :
    wordExchangeCountOf (detectAllIssues [98, 97, 100, 32, 66, 97, 100]
        allOptions (some [⟨[], [98, 97, 100], [103, 111, 111, 100], true⟩])) =
      ((([⟨[], [98, 97, 100], [103, 111, 111, 100], true⟩] :
          List WordExchange).filter activeExchange).map
        (fun ex => countWholeWordCI ex.badWord
          [98, 97, 100, 32, 66, 97, 100])).sum ∧
    wordExchangeCountOf (detectAllIssues [98, 97, 100, 32, 66, 97, 100]
        allOptions (some [⟨[], [98, 97, 100], [103, 111, 111, 100], true⟩])) = 2 :=
  ⟨detect_wordExchanges_count [98, 97, 100, 32, 66, 97, 100] allOptions
      [⟨[], [98, 97, 100], [103, 111, 111, 100], true⟩] rfl,
   by decide⟩

/-! ## Word variations (C5) -/

/-- Membership is unchanged by the JavaScript `Set` deduplication. -/
theorem mem_jsDedup (l : List (List Nat)) (x : List Nat) :
    x ∈ jsDedup l ↔ x ∈ l := by
  have main : ∀ (l acc : List (List Nat)),
      (x ∈ l.foldl
        (fun acc x => if acc.contains x then acc else acc ++ [x]) acc) ↔
      x ∈ acc ∨ x ∈ l := by
    intro l
    induction l with
    | nil => intro acc; simp
    | cons a l ih =>
        intro acc
        simp only [List.foldl_cons]
        rw [ih]
        by_cases hc : acc.contains a
        · have ha : a ∈ acc := by simpa using hc
          simp only [if_pos hc, List.mem_cons]
          constructor
          · rintro (hx | hx)
            · exact Or.inl hx
            · exact Or.inr (Or.inr hx)
          · rintro (hx | hx | hx)
            · exact Or.inl hx
            · exact Or.inl (hx ▸ ha)
            · exact Or.inr hx
        · simp only [if_neg hc, List.mem_append, List.mem_singleton,
            List.mem_cons]
          tauto
  simpa [jsDedup] using main l []

/-- The JavaScript `Set` deduplication yields a duplicate-free list. -/
theorem nodup_jsDedup (l : List (List Nat)) : (jsDedup l).Nodup := by
  have main : ∀ (l acc : List (List Nat)), acc.Nodup →
      (l.foldl
        (fun acc x => if acc.contains x then acc else acc ++ [x]) acc).Nodup := by
    intro l
    induction l with
    | nil => intro acc h; exact h
    | cons a l ih =>
        intro acc h
        simp only [List.foldl_cons]
        by_cases hc : acc.contains a
        · rw [if_pos hc]; exact ih acc h
        · rw [if_neg hc]
          refine ih _ (List.Nodup.append h (List.nodup_singleton a) ?_)
          intro b hb hb2
          simp only [List.mem_singleton] at hb2
          subst hb2
          exact hc (by simpa using hb)
  exact main l [] List.nodup_nil

/-- C5.  `generateWordVariations` returns, when variance is disabled,
exactly `[w]`; when variance is enabled, a duplicate-free list whose
elements are exactly: `w`; if `caseVariation`, the lowercase, uppercase
and capitalized forms; if `pluralVariation`, `w+"s"` when `w` does not
end in `s`, `w` minus its trailing `s` when it ends in `s` with length
above one, and `w` with trailing `y` replaced by `"ies"` when it ends in
`y` with length above one. -/
theorem generateWordVariations_spec (word : List Nat) (vs : VarianceSettings) :
    (vs.enabled = false → generateWordVariations word vs = [word]) ∧
    (vs.enabled = true →
      (generateWordVariations word vs).Nodup ∧
      (∀ x, x ∈ generateWordVariations word vs ↔
        (x = word ∨
         (vs.caseVariation = true ∧
           (x = toLowerStr word ∨ x = toUpperStr word ∨ x = capitalizeJS word)) ∨
         (vs.pluralVariation = true ∧
           ((endsWithS word = false ∧ x = word ++ [115]) ∨
            (endsWithS word = true ∧ 1 < word.length ∧ x = word.dropLast) ∨
            (endsWithY word = true ∧ 1 < word.length ∧
              x = word.dropLast ++ [105, 101, 115])))))) := by
  constructor
  · intro h; simp [generateWordVariations, h]
  · intro h
    constructor
    · simp only [generateWordVariations, h, if_true]
      exact nodup_jsDedup _
    · intro x
      simp only [generateWordVariations, h, if_true]
      rw [mem_jsDedup]
      cases hc : vs.caseVariation <;> cases hp : vs.pluralVariation <;>
        cases hs : endsWithS word <;> cases hy : endsWithY word <;>
        by_cases hl : 1 < word.length <;>
        simp [hs, hy, hl, List.mem_append] <;> tauto

/-- C5 witness: the variations of `"boy"` with variance fully enabled
include `"boys"`, and with variance disabled the list is just `["boy"]`. -/
theorem generateWordVariations_spec_witness :
    generateWordVariations [98, 111, 121] ⟨false, false, false, false⟩ =
      [[98, 111, 121]] ∧
    (generateWordVariations [98, 111, 121] ⟨true, true, true, true⟩).Nodup ∧
    [98, 111, 121, 115] ∈ generateWordVariations [98, 111, 121]
      ⟨true, true, true, true⟩ :=
  ⟨(generateWordVariations_spec [98, 111, 121] ⟨false, false, false, false⟩).1 rfl,
   ((generateWordVariations_spec [98, 111, 121] ⟨true, true, true, true⟩).2 rfl).1,
   (((generateWordVariations_spec [98, 111, 121] ⟨true, true, true, true⟩).2
      rfl).2 _).mpr
    (Or.inr (Or.inr ⟨rfl, Or.inl ⟨by decide, rfl⟩⟩))⟩

/-! ## Detected positions (C4) -/

/-- Every reported position is `i` plus an in-range offset whose code
point (as read at that code-unit index) is a registry hit. -/
theorem detectAux_positions (us : List Nat) (i : Nat) :
    ∀ p ∈ (detectAux us i).positions,
      ∃ k, p = i + k ∧ k < us.length ∧ invisible (cpAt us k) = true := by
  induction us, i using detectAux.induct with
  | case1 i => simp [detectAux, zeroResult]
  | case2 u i h =>
      intro p hmem
      simp only [detectAux, if_pos h, bump, zeroResult,
        List.mem_singleton] at hmem
      exact ⟨0, by omega, by simp, by simpa [cpAt] using h.2⟩
  | case3 u i h =>
      simp [detectAux, if_neg h, zeroResult]
  | case4 u l rest i hp hinv ih =>
      intro p hmem
      simp only [detectAux, if_pos hp, if_pos hinv, bump,
        List.mem_cons] at hmem
      rcases hmem with hmem | hmem
      · exact ⟨0, by omega, by simp, by simpa [cpAt, hp] using hinv⟩
      · obtain ⟨k, hk, hlen, hcp⟩ := ih p hmem
        exact ⟨k + 2, by omega, by simp only [List.length_cons]; omega,
          by simpa only [cpAt] using hcp⟩
  | case5 u l rest i hp hinv ih =>
      intro p hmem
      simp only [detectAux, if_pos hp, if_neg hinv] at hmem
      obtain ⟨k, hk, hlen, hcp⟩ := ih p hmem
      exact ⟨k + 2, by omega, by simp only [List.length_cons]; omega,
        by simpa only [cpAt] using hcp⟩
  | case6 u l rest i hp hc ih =>
      intro p hmem
      simp only [detectAux, if_neg hp, if_pos hc, bump,
        List.mem_cons] at hmem
      rcases hmem with hmem | hmem
      · refine ⟨0, by omega, by simp, ?_⟩
        have hcu : cpAt (u :: l :: rest) 0 = u := by simp [cpAt, hp]
        rw [hcu]
        exact hc.2
      · obtain ⟨k, hk, hlen, hcp⟩ := ih p hmem
        exact ⟨k + 1, by omega,
          by simp only [List.length_cons] at hlen ⊢; omega,
          by simpa only [cpAt] using hcp⟩
  | case7 u l rest i hp hc ih =>
      intro p hmem
      simp only [detectAux, if_neg hp, if_neg hc] at hmem
      obtain ⟨k, hk, hlen, hcp⟩ := ih p hmem
      exact ⟨k + 1, by omega,
        by simp only [List.length_cons] at hlen ⊢; omega,
        by simpa only [cpAt] using hcp⟩

/-- The reported positions are strictly increasing. -/
theorem detectAux_positions_sorted (us : List Nat) (i : Nat) :
    (detectAux us i).positions.Pairwise (· < ·) := by
  induction us, i using detectAux.induct with
  | case1 i => simp [detectAux, zeroResult]
  | case2 u i h => simp [detectAux, if_pos h, bump, zeroResult]
  | case3 u i h => simp [detectAux, if_neg h, zeroResult]
  | case4 u l rest i hp hinv ih =>
      simp only [detectAux, if_pos hp, if_pos hinv, bump]
      refine List.pairwise_cons.mpr ⟨fun q hq => ?_, ih⟩
      obtain ⟨k, hk, _, _⟩ := detectAux_positions rest (i + 2) q hq
      omega
  | case5 u l rest i hp hinv ih =>
      simp only [detectAux, if_pos hp, if_neg hinv]
      exact ih
  | case6 u l rest i hp hc ih =>
      simp only [detectAux, if_neg hp, if_pos hc, bump]
      refine List.pairwise_cons.mpr ⟨fun q hq => ?_, ih⟩
      obtain ⟨k, hk, _, _⟩ := detectAux_positions (l :: rest) (i + 1) q hq
      omega
  | case7 u l rest i hp hc ih =>
      simp only [detectAux, if_neg hp, if_neg hc]
      exact ih

/-- On genuine 16-bit unit lists, a position whose code point is
supplementary is never followed by a position at the next code unit:
the scan records the pair as one hit and skips its low half. -/
theorem detectAux_skip (us : List Nat) (i : Nat)
    (hu : ∀ u ∈ us, u < 0x10000) :
    ∀ k, (i + k) ∈ (detectAux us i).positions → 0xFFFF < cpAt us k →
      (i + k + 1) ∉ (detectAux us i).positions := by
  induction us, i using detectAux.induct with
  | case1 i => simp [detectAux, zeroResult]
  | case2 u i h =>
      intro k hk hcp
      simp only [detectAux, if_pos h, bump, zeroResult,
        List.mem_singleton] at hk
      have hk0 : k = 0 := by omega
      subst hk0
      simp only [cpAt] at hcp
      have := hu u (by simp)
      omega
  | case3 u i h =>
      simp [detectAux, if_neg h, zeroResult]
  | case4 u l rest i hp hinv ih =>
      have hu2 : ∀ u ∈ rest, u < 0x10000 := fun v hv => hu v (by simp [hv])
      intro k hk hcp habs
      simp only [detectAux, if_pos hp, if_pos hinv, bump,
        List.mem_cons] at hk habs
      rcases hk with hk | hk
      · have hk0 : k = 0 := by omega
        subst hk0
        rcases habs with habs | habs
        · omega
        · obtain ⟨k2, hk2, _, _⟩ := detectAux_positions rest (i + 2) _ habs
          omega
      · obtain ⟨k2, hk2, _, _⟩ := detectAux_positions rest (i + 2) _ hk
        rcases habs with habs | habs
        · omega
        · have hcp2 : 0xFFFF < cpAt rest k2 := by
            have hkk : k = k2 + 2 := by omega
            rw [hkk] at hcp
            simpa only [cpAt] using hcp
          refine ih hu2 k2 (hk2 ▸ hk) hcp2 ?_
          have he : i + 2 + k2 + 1 = i + k + 1 := by omega
          rw [he]
          exact habs
  | case5 u l rest i hp hinv ih =>
      have hu2 : ∀ u ∈ rest, u < 0x10000 := fun v hv => hu v (by simp [hv])
      intro k hk hcp habs
      simp only [detectAux, if_pos hp, if_neg hinv] at hk habs
      obtain ⟨k2, hk2, _, _⟩ := detectAux_positions rest (i + 2) _ hk
      have hcp2 : 0xFFFF < cpAt rest k2 := by
        have hkk : k = k2 + 2 := by omega
        rw [hkk] at hcp
        simpa only [cpAt] using hcp
      refine ih hu2 k2 (hk2 ▸ hk) hcp2 ?_
      have he : i + 2 + k2 + 1 = i + k + 1 := by omega
      rw [he]
      exact habs
  | case6 u l rest i hp hc ih =>
      have hu2 : ∀ u ∈ l :: rest, u < 0x10000 := fun v hv => hu v (by simp [hv])
      intro k hk hcp habs
      simp only [detectAux, if_neg hp, if_pos hc, bump,
        List.mem_cons] at hk habs
      rcases hk with hk | hk
      · have hk0 : k = 0 := by omega
        subst hk0
        have hcpu : cpAt (u :: l :: rest) 0 = u := by simp [cpAt, hp]
        rw [hcpu] at hcp
        have := hu u (by simp)
        omega
      · obtain ⟨k2, hk2, _, _⟩ := detectAux_positions (l :: rest) (i + 1) _ hk
        rcases habs with habs | habs
        · omega
        · have hcp2 : 0xFFFF < cpAt (l :: rest) k2 := by
            have hkk : k = k2 + 1 := by omega
            rw [hkk] at hcp
            simpa only [cpAt] using hcp
          refine ih hu2 k2 (hk2 ▸ hk) hcp2 ?_
          have he : i + 1 + k2 + 1 = i + k + 1 := by omega
          rw [he]
          exact habs
  | case7 u l rest i hp hc ih =>
      have hu2 : ∀ u ∈ l :: rest, u < 0x10000 := fun v hv => hu v (by simp [hv])
      intro k hk hcp habs
      simp only [detectAux, if_neg hp, if_neg hc] at hk habs
      obtain ⟨k2, hk2, _, _⟩ := detectAux_positions (l :: rest) (i + 1) _ hk
      have hcp2 : 0xFFFF < cpAt (l :: rest) k2 := by
        have hkk : k = k2 + 1 := by omega
        rw [hkk] at hcp
        simpa only [cpAt] using hcp
      refine ih hu2 k2 (hk2 ▸ hk) hcp2 ?_
      have he : i + 1 + k2 + 1 = i + k + 1 := by omega
      rw [he]
      exact habs

/-- The computed form of the `VARIATION_SELECTORS` list. -/
theorem variation_selectors_eq : VARIATION_SELECTORS =
    [0x180B, 0x180C, 0x180D, 0x180E, 0xFE00, 0xFE01, 0xFE02, 0xFE03, 0xFE04,
     0xFE05, 0xFE06, 0xFE07, 0xFE08, 0xFE09, 0xFE0A, 0xFE0B, 0xFE0C, 0xFE0D,
     0xFE0E, 0xFE0F] := rfl

/-- A lone surrogate half read by `codePointAt` is never a registry hit:
every registry code point lies outside the surrogate block. -/
theorem invisible_surrogate (l : Nat) (h1 : 0xD800 ≤ l) (h2 : l ≤ 0xDFFF) :
    invisible l = false := by
  cases hv : invisible l with
  | false => rfl
  | true =>
      exfalso
      simp [invisible, ZERO_WIDTH, BIDI_CONTROLS, MATH_OPERATORS, HYPHENATION,
        variation_selectors_eq, FORMAT_CONTROLS, SHORTHAND, TAG_START, TAG_END,
        IVS_START, IVS_END] at hv
      omega

/-- Completeness of the scan: every code-unit index at which
`codePointAt` reads a registry code point is reported (shifted by the
running offset `i`).  At the trailing half of a recorded surrogate pair
`codePointAt` reads a lone low surrogate, which is never a registry hit,
so such indices satisfy this vacuously. -/
theorem detectAux_positions_complete (us : List Nat) (i : Nat) :
    ∀ k, k < us.length → invisible (cpAt us k) = true →
      (i + k) ∈ (detectAux us i).positions := by
  induction us, i using detectAux.induct with
  | case1 i => intro k hk; simp at hk
  | case2 u i h =>
      intro k hk hinvk
      have hk0 : k = 0 := by
        simp only [List.length_singleton] at hk
        omega
      subst hk0
      simp [detectAux, if_pos h, bump, zeroResult]
  | case3 u i h =>
      intro k hk hinvk
      have hk0 : k = 0 := by
        simp only [List.length_singleton] at hk
        omega
      subst hk0
      simp only [cpAt] at hinvk
      exfalso
      apply h
      refine ⟨fun h0 => ?_, hinvk⟩
      rw [h0] at hinvk
      exact absurd hinvk (by decide)
  | case4 u l rest i hp hinv2 ih =>
      intro k hk hinvk
      simp only [detectAux, if_pos hp, if_pos hinv2, bump]
      rcases k with _ | (_ | k2)
      · simp
      · -- index 1 is the trailing low surrogate: never a registry hit
        exfalso
        have hlow := hp.2
        simp only [isLow, decide_eq_true_eq] at hlow
        have hhl : isHigh l = false := by
          simp only [isHigh, decide_eq_false_iff_not, decide_eq_true_eq]
          omega
        have hcp1 : cpAt (u :: l :: rest) 1 = l := by
          cases rest with
          | nil => simp [cpAt]
          | cons r rs => simp [cpAt, hhl]
        rw [hcp1] at hinvk
        rw [invisible_surrogate l (by omega) (by omega)] at hinvk
        exact absurd hinvk (by decide)
      · simp only [List.length_cons] at hk
        simp only [cpAt] at hinvk
        have hmem := ih k2 (by omega) hinvk
        have harith : i + 2 + k2 = i + (k2 + 2) := by omega
        exact List.mem_cons_of_mem _ (harith ▸ hmem)
  | case5 u l rest i hp hinv2 ih =>
      intro k hk hinvk
      simp only [detectAux, if_pos hp, if_neg hinv2]
      rcases k with _ | (_ | k2)
      · exfalso
        simp only [cpAt, if_pos hp] at hinvk
        exact hinv2 hinvk
      · exfalso
        have hlow := hp.2
        simp only [isLow, decide_eq_true_eq] at hlow
        have hhl : isHigh l = false := by
          simp only [isHigh, decide_eq_false_iff_not, decide_eq_true_eq]
          omega
        have hcp1 : cpAt (u :: l :: rest) 1 = l := by
          cases rest with
          | nil => simp [cpAt]
          | cons r rs => simp [cpAt, hhl]
        rw [hcp1] at hinvk
        rw [invisible_surrogate l (by omega) (by omega)] at hinvk
        exact absurd hinvk (by decide)
      · simp only [List.length_cons] at hk
        simp only [cpAt] at hinvk
        have hmem := ih k2 (by omega) hinvk
        have harith : i + 2 + k2 = i + (k2 + 2) := by omega
        exact harith ▸ hmem
  | case6 u l rest i hp hc ih =>
      intro k hk hinvk
      simp only [detectAux, if_neg hp, if_pos hc, bump]
      rcases k with _ | k1
      · simp
      · simp only [List.length_cons] at hk
        simp only [cpAt] at hinvk
        have hmem := ih k1 (by simp only [List.length_cons]; omega) hinvk
        have harith : i + 1 + k1 = i + (k1 + 1) := by omega
        exact List.mem_cons_of_mem _ (harith ▸ hmem)
  | case7 u l rest i hp hc ih =>
      intro k hk hinvk
      simp only [detectAux, if_neg hp, if_neg hc]
      rcases k with _ | k1
      · exfalso
        simp only [cpAt, if_neg hp] at hinvk
        apply hc
        refine ⟨fun h0 => ?_, hinvk⟩
        rw [h0] at hinvk
        exact absurd hinvk (by decide)
      · simp only [List.length_cons] at hk
        simp only [cpAt] at hinvk
        have hmem := ih k1 (by simp only [List.length_cons]; omega) hinvk
        have harith : i + 1 + k1 = i + (k1 + 1) := by omega
        exact harith ▸ hmem

/-- C4.  On every genuine UTF-16 text (all units 16-bit), the positions
list of `detectInvisibleCharacters` is strictly increasing; every
code-unit index at which `codePointAt` reads a registry code point is
reported; every entry is such an index inside the text; and a
supplementary-plane invisible character contributes exactly one entry —
its starting index is reported (once, by strict increase) while its
trailing-surrogate index never appears. -/
theorem detect_positions_spec (t : List Nat) (hu : ∀ u ∈ t, u < 0x10000) :
    (detectInvisibleCharacters t).positions.Pairwise (· < ·) ∧
    (∀ k, k < t.length → invisible (cpAt t k) = true →
      k ∈ (detectInvisibleCharacters t).positions) ∧
    (∀ p ∈ (detectInvisibleCharacters t).positions,
      p < t.length ∧ invisible (cpAt t p) = true ∧
      (0xFFFF < cpAt t p →
        (p + 1) ∉ (detectInvisibleCharacters t).positions)) := by
  refine ⟨detectAux_positions_sorted t 0, fun k hk hinvk => ?_, fun p hp => ?_⟩
  · have := detectAux_positions_complete t 0 k hk hinvk
    simpa using this
  · obtain ⟨k, hk, hlen, hcp⟩ := detectAux_positions t 0 p hp
    have hk0 : p = k := by omega
    subst hk0
    refine ⟨hlen, hcp, fun hbig => ?_⟩
    have := detectAux_skip t 0 hu p (by simpa using hp) hbig
    simpa using this

/-- C4 witness: on `"A" + U+E0000` (encoded `[65, 0xDB40, 0xDC00]`), the
supplementary-plane registry hit at code-unit index `1` is reported —
`1 ∈ positions` — while its trailing-surrogate index `2` is not. -/
theorem detect_positions_spec_witness :
    (detectInvisibleCharacters [65, 0xDB40, 0xDC00]).positions.Pairwise (· < ·) ∧
    (1 : Nat) ∈ (detectInvisibleCharacters [65, 0xDB40, 0xDC00]).positions ∧
    (1 : Nat) < ([65, 0xDB40, 0xDC00] : List Nat).length ∧
    invisible (cpAt [65, 0xDB40, 0xDC00] 1) = true ∧
    (2 : Nat) ∉ (detectInvisibleCharacters [65, 0xDB40, 0xDC00]).positions :=
  ⟨(detect_positions_spec [65, 0xDB40, 0xDC00] (by decide)).1,
   (detect_positions_spec [65, 0xDB40, 0xDC00] (by decide)).2.1 1
      (by decide) (by decide),
   ((detect_positions_spec [65, 0xDB40, 0xDC00] (by decide)).2.2 1 (by decide)).1,
   ((detect_positions_spec [65, 0xDB40, 0xDC00] (by decide)).2.2 1 (by decide)).2.1,
   ((detect_positions_spec [65, 0xDB40, 0xDC00] (by decide)).2.2 1
      (by decide)).2.2 (by decide)⟩

/-! ## Collapsing repeated characters (C7) -/

/-- Dropping as many units as the matched run is `dropWhile`. -/
theorem drop_length_takeWhile (p : Nat → Bool) (l : List Nat) :
    l.drop (l.takeWhile p).length = l.dropWhile p := by
  induction l with
  | nil => rfl
  | cons a l ih =>
      by_cases hp : p a
      · simp [List.takeWhile_cons, List.dropWhile_cons, hp, ih]
      · simp [List.takeWhile_cons, List.dropWhile_cons, hp]

/-- If nothing is taken, nothing is dropped. -/
theorem dropWhile_eq_self_of_takeWhile_nil (p : Nat → Bool) (l : List Nat)
    (h : l.takeWhile p = []) : l.dropWhile p = l := by
  cases l with
  | nil => rfl
  | cons a l =>
      by_cases hp : p a
      · simp [List.takeWhile_cons, hp] at h
      · simp [List.dropWhile_cons, hp]

/-- The behaviour the amended claim describes, stated independently of
the scanner: walk the text run by run; a maximal run of three or more
identical units whose unit is not a line terminator collapses to a single
unit, every other run is kept. -/
def collapseRunsSpec : List Nat → List Nat
  | [] => []
  | c :: rest =>
      if isLineTerm c = false ∧ 2 ≤ (rest.takeWhile (· == c)).length then
        c :: collapseRunsSpec (rest.dropWhile (· == c))
      else (c :: rest.takeWhile (· == c)) ++ collapseRunsSpec (rest.dropWhile (· == c))
termination_by l => l.length
decreasing_by
  all_goals
    simp only [List.length_cons]
    refine Nat.lt_succ_of_le ?_
    exact List.IsSuffix.length_le (List.dropWhile_suffix _)

/-- A run-leading line terminator is copied and the tail processed on its
own: terminator runs are never collapsed. -/
theorem collapseRunsSpec_cons_term (c : Nat) (rest : List Nat)
    (hterm : isLineTerm c = true) :
    collapseRunsSpec (c :: rest) = c :: collapseRunsSpec rest := by
  rw [collapseRunsSpec]
  rw [if_neg (by simp [hterm])]
  cases rest with
  | nil => simp
  | cons d rest2 =>
      by_cases hd : (d == c) = true
      · have hdc : d = c := by simpa using hd
        subst hdc
        rw [collapseRunsSpec]
        rw [if_neg (by simp [hterm])]
        simp [List.takeWhile_cons, List.dropWhile_cons, hd]
      · simp [List.takeWhile_cons, List.dropWhile_cons, hd]

/-- A run of fewer than three identical units is copied unchanged. -/
theorem collapseRunsSpec_cons_short (c : Nat) (rest : List Nat)
    (h2 : ¬ 2 ≤ (rest.takeWhile (· == c)).length) :
    collapseRunsSpec (c :: rest) = c :: collapseRunsSpec rest := by
  rw [collapseRunsSpec]
  rw [if_neg (by tauto)]
  cases rest with
  | nil => simp
  | cons d rest2 =>
      by_cases hd : (d == c) = true
      · have hdc : d = c := by simpa using hd
        subst hdc
        have ht2 : rest2.takeWhile (· == d) = [] := by
          simp only [List.takeWhile_cons, hd, if_true] at h2
          rcases hx : rest2.takeWhile (· == d) with _ | ⟨y, ys⟩
          · rfl
          · rw [hx] at h2
            simp at h2
        rw [collapseRunsSpec]
        rw [if_neg (by simp [ht2])]
        simp [List.takeWhile_cons, List.dropWhile_cons, hd, ht2,
          dropWhile_eq_self_of_takeWhile_nil _ _ ht2]
      · simp [List.takeWhile_cons, List.dropWhile_cons, hd]

/-- The `REPEATING_CHARS_REGEX` global replacement computes exactly the
run-collapse of `collapseRunsSpec`, whatever the scanner's left context. -/
theorem replaceGo_repeat_eq :
    ∀ (n : Nat) (s : List Nat) (prev : Option Nat), s.length ≤ n →
      replaceGoP repeatMatch prev s = collapseRunsSpec s := by
  intro n
  induction n with
  | zero =>
      intro s prev h
      cases s with
      | nil => simp [replaceGoP, replaceGo, collapseRunsSpec]
      | cons a rest => simp at h
  | succ n ih =>
      intro s prev hlen
      cases s with
      | nil => simp [replaceGoP, replaceGo, collapseRunsSpec]
      | cons c rest =>
          simp only [List.length_cons] at hlen
          by_cases hterm : isLineTerm c = true
          · have hm : repeatMatch prev c rest = none := by
              simp [repeatMatch, hterm]
            rw [replaceGoP_cons, hm]
            rw [ih rest (some c) (by omega)]
            exact (collapseRunsSpec_cons_term c rest hterm).symm
          · have hterm2 : isLineTerm c = false := by
              revert hterm; cases isLineTerm c <;> simp
            by_cases hrun : 2 ≤ (rest.takeWhile (· == c)).length
            · have hm : repeatMatch prev c rest =
                  some ((rest.takeWhile (· == c)).length, [c]) := by
                simp [repeatMatch, hterm2, hrun]
              rw [replaceGoP_cons, hm]
              show [c] ++ replaceGoP repeatMatch _
                  (rest.drop (rest.takeWhile (· == c)).length) =
                collapseRunsSpec (c :: rest)
              rw [drop_length_takeWhile]
              rw [ih (rest.dropWhile (· == c)) _ (by
                have h := List.IsSuffix.length_le
                  (@List.dropWhile_suffix _ rest (fun x => x == c))
                omega)]
              rw [collapseRunsSpec]
              rw [if_pos ⟨hterm2, hrun⟩]
              rfl
            · have hm : repeatMatch prev c rest = none := by
                simp [repeatMatch, hterm2, hrun]
              rw [replaceGoP_cons, hm]
              rw [ih rest (some c) (by omega)]
              exact (collapseRunsSpec_cons_short c rest hrun).symm

/-- C7 (amended).  `cleanText` with `repeatingChars` enabled collapses
each maximal run of three or more identical consecutive occurrences of a
character into a single occurrence, for every character except the four
line terminators (U+000A, U+000D, U+2028, U+2029), whose runs the
repeating-characters pass leaves intact (`.` of `REPEATING_CHARS_REGEX`
does not match them); the unconditional final normalization then
collapses runs of three or more newlines to exactly two and trims. -/
theorem clean_repeating_collapses (t : List Nat) :
    cleanText t repeatOnlyOptions none none =
      jsTrim (newlinesPass (collapseRunsSpec t)) := by
  simp [cleanText, repeatOnlyOptions]
  rw [show repeatingPass t = collapseRunsSpec t from
    replaceGo_repeat_eq t.length t none (Nat.le_refl _)]

/-- C7 counterexample.  On `"a\r\r\rb"` with `repeatingChars` enabled,
`cleanText` returns the text unchanged — the run of three carriage
returns is not collapsed to one, contradicting the claim for arbitrary
characters. -/
theorem clean_repeating_counterexample :
    cleanText [97, 13, 13, 13, 98] repeatOnlyOptions none none =
      [97, 13, 13, 13, 98] ∧
    cleanText [97, 13, 13, 13, 98] repeatOnlyOptions none none ≠
      [97, 13, 98] := by
  constructor
  · decide
  · decide

/-! ## The final normalization of cleanText (C10) -/

/-- Whether the text contains three consecutive newline units. -/
def hasTripleNewline : List Nat → Bool
  | [] => false
  | a :: rest =>
      (decide (a = 10) && decide (rest.take 2 = [10, 10])) || hasTripleNewline rest

/-- The head surviving `dropWhile` fails the predicate. -/
theorem head?_dropWhile_not (p : Nat → Bool) (l : List Nat) (h : Nat)
    (hh : (l.dropWhile p).head? = some h) : p h = false := by
  induction l with
  | nil => simp at hh
  | cons a l ih =>
      by_cases hp : p a
      · rw [List.dropWhile_cons, if_pos hp] at hh
        exact ih hh
      · rw [List.dropWhile_cons, if_neg hp] at hh
        simp only [List.head?_cons, Option.some.injEq] at hh
        subst hh
        revert hp
        cases p a <;> simp

/-- The head of a non-empty prefix is the head of the whole list. -/
theorem prefix_head (p m : List Nat) (h : p <+: m) (x : Nat)
    (hx : p.head? = some x) : m.head? = some x := by
  obtain ⟨t, rfl⟩ := h
  cases p with
  | nil => simp at hx
  | cons a q => simpa using hx

/-- `jsTrim l` is a prefix of the left-trimmed list. -/
theorem jsTrim_pref_dropWhile (l : List Nat) : jsTrim l <+: l.dropWhile isWS := by
  unfold jsTrim
  have h1 : ((l.dropWhile isWS).reverse.dropWhile isWS) <:+
      (l.dropWhile isWS).reverse := List.dropWhile_suffix _
  have h2 := List.reverse_prefix.mpr h1
  rwa [List.reverse_reverse] at h2

/-- The result of `jsTrim` never starts with whitespace. -/
theorem jsTrim_head_not_ws (l : List Nat) (h : Nat)
    (hh : (jsTrim l).head? = some h) : isWS h = false :=
  head?_dropWhile_not isWS l h (prefix_head _ _ (jsTrim_pref_dropWhile l) h hh)

/-- The result of `jsTrim` never ends with whitespace. -/
theorem jsTrim_getLast_not_ws (l : List Nat) (h : Nat)
    (hh : (jsTrim l).getLast? = some h) : isWS h = false := by
  unfold jsTrim at hh
  rw [List.getLast?_reverse] at hh
  exact head?_dropWhile_not isWS _ h hh

/-- A newline triple in a suffix is a triple in the whole list. -/
theorem hasTriple_suffix_mono (m' m : List Nat) (h : m' <:+ m)
    (ht : hasTripleNewline m' = true) : hasTripleNewline m = true := by
  obtain ⟨pre, rfl⟩ := h
  induction pre with
  | nil => simpa using ht
  | cons a pre ih =>
      simp only [List.cons_append, hasTripleNewline, Bool.or_eq_true]
      exact Or.inr ih

/-- A confirmed 2-take is stable under appending on the right. -/
theorem take2_append (l t : List Nat) (h : l.take 2 = [10, 10]) :
    (l ++ t).take 2 = [10, 10] := by
  match l with
  | [] => simp at h
  | [a] => simp at h
  | a :: b :: rest =>
      simp only [List.take_succ_cons, List.take_zero, List.cons.injEq] at h ⊢
      simp only [List.cons_append]
      simp only [List.take_succ_cons, List.take_zero, List.cons.injEq]
      exact h

/-- A newline triple in a prefix is a triple in the whole list. -/
theorem hasTriple_prefix_mono (m' t : List Nat)
    (ht : hasTripleNewline m' = true) :
    hasTripleNewline (m' ++ t) = true := by
  induction m' with
  | nil => simp [hasTripleNewline] at ht
  | cons a rest ih =>
      simp only [hasTripleNewline, Bool.or_eq_true, Bool.and_eq_true,
        decide_eq_true_eq] at ht
      simp only [List.cons_append, hasTripleNewline, Bool.or_eq_true,
        Bool.and_eq_true, decide_eq_true_eq]
      rcases ht with ⟨ha, h2⟩ | ht
      · exact Or.inl ⟨ha, take2_append _ _ h2⟩
      · exact Or.inr (ih ht)

/-- Trimming cannot create a newline triple. -/
theorem hasTriple_jsTrim (l : List Nat) (h : hasTripleNewline l = false) :
    hasTripleNewline (jsTrim l) = false := by
  cases hv : hasTripleNewline (jsTrim l) with
  | false => rfl
  | true =>
      obtain ⟨t, heq⟩ := jsTrim_pref_dropWhile l
      have h1 : hasTripleNewline (l.dropWhile isWS) = true := by
        rw [← heq]
        exact hasTriple_prefix_mono _ _ hv
      have h2 := hasTriple_suffix_mono _ _ (List.dropWhile_suffix _) h1
      rw [h] at h2
      simp at h2

/-- The newline scanner preserves a non-newline head. -/
theorem nl_go_head (prev : Option Nat) (s : List Nat)
    (h : ∀ b, s.head? = some b → (b == 10) = false) :
    ∀ b, (replaceGoP newlineMatch prev s).head? = some b →
      (b == 10) = false := by
  cases s with
  | nil => intro b hb; simp [replaceGoP, replaceGo] at hb
  | cons a rest =>
      have ha := h a rfl
      have hm : newlineMatch prev a rest = none := by simp [newlineMatch, ha]
      rw [replaceGoP_cons, hm]
      show ∀ b, (a :: replaceGoP newlineMatch (some a) rest).head? = some b →
        (b == 10) = false
      intro b hb
      simp only [List.head?_cons, Option.some.injEq] at hb
      exact hb ▸ ha

/-- A list with a non-newline head never 2-takes to two newlines. -/
theorem take2_ne_of_head (m : List Nat)
    (h : ∀ b, m.head? = some b → (b == 10) = false) :
    m.take 2 ≠ [10, 10] := by
  cases m with
  | nil => simp
  | cons x m2 =>
      have hx : ¬ x = 10 := by simpa using h x rfl
      simp [List.take_succ_cons, hx]

/-- Prepending one newline to such a list still never 2-takes to two
newlines. -/
theorem take2_cons10_ne (m : List Nat)
    (h : ∀ b, m.head? = some b → (b == 10) = false) :
    (10 :: m).take 2 ≠ [10, 10] := by
  cases m with
  | nil => simp
  | cons x m2 =>
      have hx : ¬ x = 10 := by simpa using h x rfl
      simp [List.take_succ_cons, hx]

/-- The output of the `\n{3,} → \n\n` pass never contains three
consecutive newlines. -/
theorem newlinesPass_no_triple_aux :
    ∀ (n : Nat) (s : List Nat) (prev : Option Nat), s.length ≤ n →
      hasTripleNewline (replaceGoP newlineMatch prev s) = false := by
  intro n
  induction n with
  | zero =>
      intro s prev h
      cases s with
      | nil => simp [replaceGoP, replaceGo, hasTripleNewline]
      | cons a rest => simp at h
  | succ n ih =>
      intro s prev hlen
      cases s with
      | nil => simp [replaceGoP, replaceGo, hasTripleNewline]
      | cons a rest =>
          simp only [List.length_cons] at hlen
          by_cases ha : (a == 10) = true
          · have ha10 : a = 10 := by simpa using ha
            subst ha10
            cases rest with
            | nil =>
                have hm : newlineMatch prev 10 ([] : List Nat) = none := by
                  simp [newlineMatch]
                rw [replaceGoP_cons, hm]
                show hasTripleNewline
                  (10 :: replaceGoP newlineMatch (some 10) []) = false
                simp [replaceGoP, replaceGo, hasTripleNewline]
            | cons b rest2 =>
                by_cases hb : (b == 10) = true
                · have hb10 : b = 10 := by simpa using hb
                  subst hb10
                  cases rest2 with
                  | nil =>
                      have hm : newlineMatch prev 10 [10] = none := by
                        simp [newlineMatch, List.takeWhile_cons]
                      rw [replaceGoP_cons, hm]
                      show hasTripleNewline
                        (10 :: replaceGoP newlineMatch (some 10) [10]) = false
                      have hm2 : newlineMatch (some 10) 10 ([] : List Nat) =
                          none := by simp [newlineMatch]
                      rw [replaceGoP_cons, hm2]
                      show hasTripleNewline
                        (10 :: 10 :: replaceGoP newlineMatch (some 10) []) = false
                      simp [replaceGoP, replaceGo, hasTripleNewline]
                  | cons d rest3 =>
                      by_cases hd : (d == 10) = true
                      · -- a run of at least three newlines: the regex fires
                        have hd10 : d = 10 := by simpa using hd
                        subst hd10
                        have hm : newlineMatch prev 10 (10 :: 10 :: rest3) =
                            some (((10 :: 10 :: rest3).takeWhile
                              (· == 10)).length, [10, 10]) := by
                          simp [newlineMatch, List.takeWhile_cons]
                        rw [replaceGoP_cons, hm]
                        show hasTripleNewline ([10, 10] ++
                          replaceGoP newlineMatch
                            (some ((10 :: 10 :: 10 :: rest3).getD
                              ((10 :: 10 :: rest3).takeWhile (· == 10)).length 0))
                            ((10 :: 10 :: rest3).drop
                              ((10 :: 10 :: rest3).takeWhile (· == 10)).length)) =
                          false
                        rw [drop_length_takeWhile]
                        have hdw : ∀ b2,
                            ((10 :: 10 :: rest3).dropWhile (· == 10)).head? =
                              some b2 → (b2 == 10) = false := by
                          intro b2 hb2
                          exact head?_dropWhile_not _ _ b2 hb2
                        have hmh := nl_go_head
                          (some ((10 :: 10 :: 10 :: rest3).getD
                            ((10 :: 10 :: rest3).takeWhile (· == 10)).length 0))
                          _ hdw
                        have hlen2 :
                            ((10 :: 10 :: rest3).dropWhile (· == 10)).length ≤ n := by
                          have hsle := List.IsSuffix.length_le
                            (@List.dropWhile_suffix _ (10 :: 10 :: rest3)
                              (fun x => x == 10))
                          simp only [List.length_cons] at hsle hlen ⊢
                          omega
                        set m := replaceGoP newlineMatch
                          (some ((10 :: 10 :: 10 :: rest3).getD
                            ((10 :: 10 :: rest3).takeWhile (· == 10)).length 0))
                          ((10 :: 10 :: rest3).dropWhile (· == 10)) with hmdef
                        have h1 : (10 :: m).take 2 ≠ [10, 10] :=
                          take2_cons10_ne m hmh
                        have h2 : m.take 2 ≠ [10, 10] := take2_ne_of_head m hmh
                        have h3 : hasTripleNewline m = false := by
                          rw [hmdef]
                          exact ih _ _ hlen2
                        show hasTripleNewline (10 :: 10 :: m) = false
                        simp only [hasTripleNewline, h1, h2, h3,
                          decide_eq_true_eq]
                        simp [h1, h2, h3]
                      · -- exactly two newlines: no match, both copied
                        have hd2 : (d == 10) = false := by
                          revert hd; cases (d == 10) <;> simp
                        have hm : newlineMatch prev 10 (10 :: d :: rest3) =
                            none := by
                          simp [newlineMatch, List.takeWhile_cons, hd2]
                        rw [replaceGoP_cons, hm]
                        show hasTripleNewline (10 :: replaceGoP newlineMatch
                          (some 10) (10 :: d :: rest3)) = false
                        have hm2 : newlineMatch (some 10) 10 (d :: rest3) =
                            none := by
                          simp [newlineMatch, List.takeWhile_cons, hd2]
                        rw [replaceGoP_cons, hm2]
                        show hasTripleNewline (10 :: 10 :: replaceGoP
                          newlineMatch (some 10) (d :: rest3)) = false
                        have hm3 : newlineMatch (some 10) d rest3 = none := by
                          simp [newlineMatch, hd2]
                        rw [replaceGoP_cons, hm3]
                        show hasTripleNewline (10 :: 10 :: d :: replaceGoP
                          newlineMatch (some d) rest3) = false
                        have hdne : ¬ d = 10 := by simpa using hd2
                        simp only [List.length_cons] at hlen
                        simp [hasTripleNewline, List.take_succ_cons, hdne,
                          ih rest3 (some d) (by omega)]
                · -- a single newline: no match
                  have hb2 : (b == 10) = false := by
                    revert hb; cases (b == 10) <;> simp
                  have hm : newlineMatch prev 10 (b :: rest2) = none := by
                    simp [newlineMatch, List.takeWhile_cons, hb2]
                  rw [replaceGoP_cons, hm]
                  show hasTripleNewline (10 :: replaceGoP newlineMatch
                    (some 10) (b :: rest2)) = false
                  have hm2 : newlineMatch (some 10) b rest2 = none := by
                    simp [newlineMatch, hb2]
                  rw [replaceGoP_cons, hm2]
                  show hasTripleNewline (10 :: b :: replaceGoP newlineMatch
                    (some b) rest2) = false
                  have hbne : ¬ b = 10 := by simpa using hb2
                  simp only [List.length_cons] at hlen
                  simp [hasTripleNewline, List.take_succ_cons, hbne,
                    ih rest2 (some b) (by omega)]
          · -- head is not a newline
            have ha2 : (a == 10) = false := by
              revert ha; cases (a == 10) <;> simp
            have hm : newlineMatch prev a rest = none := by
              simp [newlineMatch, ha2]
            rw [replaceGoP_cons, hm]
            show hasTripleNewline
              (a :: replaceGoP newlineMatch (some a) rest) = false
            have hane : ¬ a = 10 := by simpa using ha2
            simp [hasTripleNewline, hane, ih rest (some a) (by omega)]

/-- C10.  For every text, options, exchange list, and variance settings,
the string `cleanText` returns has no leading or trailing whitespace and
no run of three or more consecutive newlines: the unconditional final
pass collapses newline runs and trims. -/
theorem clean_final_normalized (t : List Nat) (opts : CleaningOptions)
    (we : Option (List WordExchange)) (vs : Option VarianceSettings) :
    (∀ h, (cleanText t opts we vs).head? = some h → isWS h = false) ∧
    (∀ h, (cleanText t opts we vs).getLast? = some h → isWS h = false) ∧
    hasTripleNewline (cleanText t opts we vs) = false := by
  have key : ∀ s : List Nat,
      (∀ h, (jsTrim (newlinesPass s)).head? = some h → isWS h = false) ∧
      (∀ h, (jsTrim (newlinesPass s)).getLast? = some h → isWS h = false) ∧
      hasTripleNewline (jsTrim (newlinesPass s)) = false := by
    intro s
    refine ⟨fun h hh => jsTrim_head_not_ws _ h hh,
      fun h hh => jsTrim_getLast_not_ws _ h hh, ?_⟩
    exact hasTriple_jsTrim _
      (newlinesPass_no_triple_aux s.length s none (Nat.le_refl _))
  simp only [cleanText]
  exact key _

/-- C10 witness: on `"a\n\n\n\nb"` with all options enabled, the cleaned
text starts with `a`, ends with `b`, and has no newline triple. -/
theorem clean_final_normalized_witness :
    isWS 97 = false ∧ isWS 98 = false ∧
    hasTripleNewline
      (cleanText [97, 10, 10, 10, 10, 98] allOptions none none) = false :=
  ⟨(clean_final_normalized [97, 10, 10, 10, 10, 98] allOptions none none).1
      97 (by decide),
   (clean_final_normalized [97, 10, 10, 10, 10, 98] allOptions none none).2.1
      98 (by decide),
   (clean_final_normalized [97, 10, 10, 10, 10, 98] allOptions none none).2.2⟩

end AcePaste
